import Mathlib

/-!
Verification development for the merveilles-chat bootstrap scripts.

The Python sources (scripts/lib/common.py, scripts/lib/keycloak_admin.py,
scripts/bootstrap-keycloak.py, scripts/redact-realm.py) are shallowly
embedded here.  Python strings are modelled as `List Char`; file contents
are `List Char` as produced by `Path.read_text()` (which performs
universal-newline translation, so lines are separated by a plain `'\n'`).
Python whitespace stripping is modelled with `Char.isWhitespace`
(space, tab, CR, LF), which agrees with Python on all characters that
occur in this domain.  Randomness (`secrets.choice`) is modelled by an
oracle `choose : Nat → Nat` supplying the index drawn at each step.
-/

namespace MerveillesChat

/-- Python-style strings: lists of characters. -/
abbrev Str := List Char

/-- Shorthand to coerce a Lean string literal into the model. -/
def chars (s : String) : Str := s.toList

/-- Left strip, as in Python `str.lstrip()`. -/
def lstripChars (cs : Str) : Str := cs.dropWhile Char.isWhitespace

/-- Right strip, as in Python `str.rstrip()`. -/
def rstripChars (cs : Str) : Str := (cs.reverse.dropWhile Char.isWhitespace).reverse

/-- Python `str.strip()`. -/
def pstrip (cs : Str) : Str := rstripChars (lstripChars cs)

/-- Python `str.splitlines()` restricted to `'\n'` separators, which is
exact for text read back via `Path.read_text()`.  `"a\n\n"` yields
`["a", ""]`, a trailing newline produces no trailing empty line, and the
empty string yields no lines. -/
def py_splitlines : Str → List Str
  | [] => []
  | c :: cs =>
    if c = '\n' then [] :: py_splitlines cs
    else
      match py_splitlines cs with
      | [] => [[c]]
      | l :: ls => (c :: l) :: ls

/-- Python `"\n".join(lines)`. -/
def join_nl : List Str → Str
  | [] => []
  | [l] => l
  | l :: ls => l ++ '\n' :: join_nl ls

/-- One iteration of the `load_env` loop (common.py lines 70-75):
strip the raw line, skip blanks, comments and lines without `'='`,
otherwise split on the first `'='`. -/
def parse_env_line (raw : Str) : Option (Str × Str) :=
  let line := pstrip raw
  if line = [] then none
  else if line.head? = some '#' then none
  else if ¬ line.contains '=' then none
  else some (line.takeWhile (· ≠ '='), (line.dropWhile (· ≠ '=')).drop 1)

/-- Python dict assignment `env[key] = value`: replace the binding in
place if the key is present, otherwise append it. -/
def assocSet (env : List (Str × Str)) (k v : Str) : List (Str × Str) :=
  match env with
  | [] => [(k, v)]
  | (k', v') :: rest => if k' = k then (k, v) :: rest else (k', v') :: assocSet rest k v

/-- The `load_env` accumulation loop over the file's lines. -/
def load_env_lines (lines : List Str) : List (Str × Str) :=
  lines.foldl
    (fun env raw =>
      match parse_env_line raw with
      | none => env
      | some (k, v) => assocSet env k v)
    []

/-- `load_env(path)` (common.py lines 65-76): a missing file (`none`)
yields the empty mapping; otherwise the file's lines are folded into a
dict. -/
def load_env (content : Option Str) : List (Str × Str) :=
  match content with
  | none => []
  | some cs => load_env_lines (py_splitlines cs)

/-- Python `env.get(key, "")`. -/
def env_get (env : List (Str × Str)) (key : Str) : Str :=
  match env with
  | [] => []
  | (k, v) :: rest => if k = key then v else env_get rest key

/-- The `set_env_value` rewrite loop (common.py lines 84-89): every line
starting with `key=` is replaced by `key=value`; the flag records
whether any line matched. -/
def set_env_loop (key value : Str) : List Str → List Str × Bool
  | [] => ([], false)
  | l :: ls =>
    let (rest, replaced) := set_env_loop key value ls
    if (key ++ ['=']).isPrefixOf l then ((key ++ '=' :: value) :: rest, true)
    else (l :: rest, replaced)

/-- `set_env_value(path, key, value)` (common.py lines 79-94), returning
the content written back: run the rewrite loop over the existing lines
(a missing file contributes no lines), append `key=value` if nothing
matched, and write `"\n".join(out) + "\n"`. -/
def set_env_value (content : Option Str) (key value : Str) : Str :=
  let lines := match content with
    | none => []
    | some cs => py_splitlines cs
  let res := set_env_loop key value lines
  let out := if res.2 then res.1 else res.1 ++ [key ++ '=' :: value]
  join_nl out ++ ['\n']

/-- `string.ascii_letters + string.digits`. -/
def py_alphabet : Str :=
  chars "abcdefghijklmnopqrstuvwxyzABCDEFGHIJKLMNOPQRSTUVWXYZ0123456789"

/-- `generate_secret(length)` (bootstrap-keycloak.py lines 102-104,
default length 32; the common.py copy at lines 97-99 defaults to 48).
Each `secrets.choice(alphabet)` draw is modelled by the oracle `choose`
supplying an index into the alphabet. -/
def generate_secret (choose : Nat → Nat) (length : Nat := 32) : Str :=
  (List.range length).map (fun i => py_alphabet.getD (choose i % py_alphabet.length) 'a')

/-- `is_missing_secret(value)` (common.py lines 127-134). -/
def is_missing_secret (value : Str) : Bool :=
  pstrip value = [] ∨ pstrip value = chars "REPLACE_ME" ∨
    pstrip value = chars "PASTE_FROM_KEYCLOAK_UI" ∨ pstrip value = chars "__PLACEHOLDER__"

/-- The secret-resolution slice of `load_config` (bootstrap-keycloak.py
lines 370-402), acting on the env file's content.  Returns the resolved
secret, the file content after the step (write-through happens only in
the generation branch), and the `secret_generated` flag; the
`KC_ADMIN`/`KC_ADMIN_PASSWORD` guard errors out first, exactly as in the
source. -/
def load_config (content : Option Str) (choose : Nat → Nat) :
    Except Str (Str × Option Str × Bool) :=
  let env := load_env content
  let admin_user := env_get env (chars "KC_ADMIN")
  let admin_password := env_get env (chars "KC_ADMIN_PASSWORD")
  if admin_user = [] ∨ admin_password = [] then
    .error (chars "KC_ADMIN and KC_ADMIN_PASSWORD must be set in .env")
  else
    let secret := env_get env (chars "PROSODY_OAUTH_SECRET")
    if secret = [] ∨ secret = chars "PASTE_FROM_KEYCLOAK_UI" then
      let gen := generate_secret choose
      .ok (gen, some (set_env_value content (chars "PROSODY_OAUTH_SECRET") gen), true)
    else
      .ok (secret, content, false)

/-- Decimal digit character. -/
def digitChar (d : Nat) : Char := Char.ofNat (48 + d)

/-- Decimal rendering of a natural number, as Python `str(n)` for `n ≥ 0`. -/
def natToChars (n : Nat) : Str :=
  if _h : n < 10 then [digitChar n]
  else natToChars (n / 10) ++ [digitChar (n % 10)]
termination_by n
decreasing_by exact Nat.div_lt_self (by omega) (by omega)

/-- Python `str(i)` for a decoded JSON integer. -/
def intToChars (i : Int) : Str :=
  if i < 0 then '-' :: natToChars i.natAbs else natToChars i.toNat

/-- Decoded JSON values, as produced by `json.loads`.  Object fields keep
their textual order; `json.loads` guarantees string keys and no duplicate
keys in a decoded object. -/
inductive Json where
  | null
  | bool (b : Bool)
  | num (n : Int)
  | str (s : Str)
  | arr (items : List Json)
  | obj (fields : List (Str × Json))

/-- Python truthiness of a decoded JSON value (`bool(x)` / `if x:`). -/
def pyTruthy : Json → Bool
  | .null => false
  | .bool b => b
  | .num n => decide (n ≠ 0)
  | .str s => decide (s ≠ [])
  | .arr items => !items.isEmpty
  | .obj fields => !fields.isEmpty

/-- The apostrophe character (used by Python `repr` of strings). -/
def apos : Char := Char.ofNat 39

/-- Opening curly brace. -/
def lbrace : Char := Char.ofNat 123

/-- Closing curly brace. -/
def rbrace : Char := Char.ofNat 125

/-- Quote a name in apostrophes, as the f-strings in the source do. -/
def quoted (s : Str) : Str := apos :: s ++ [apos]

mutual
/-- Python `repr()` of a decoded JSON value, needed because `str()` of a
container is its repr.  Escape sequences inside string payloads are not
modelled; no claim evaluates `str()` on a container. -/
def pyRepr : Json → Str
  | .null => chars "None"
  | .bool true => chars "True"
  | .bool false => chars "False"
  | .num n => intToChars n
  | .str s => quoted s
  | .arr items => '[' :: pyReprItems items ++ [']']
  | .obj fields => lbrace :: pyReprFields fields ++ [rbrace]

/-- Comma-separated reprs of list items. -/
def pyReprItems : List Json → Str
  | [] => []
  | [x] => pyRepr x
  | x :: xs => pyRepr x ++ chars ", " ++ pyReprItems xs

/-- Comma-separated `key: value` reprs of object fields. -/
def pyReprFields : List (Str × Json) → Str
  | [] => []
  | [(k, v)] => quoted k ++ chars ": " ++ pyRepr v
  | (k, v) :: rest => quoted k ++ chars ": " ++ pyRepr v ++ chars ", " ++ pyReprFields rest
end

/-- Python `str()` of a decoded JSON value. -/
def pyStr : Json → Str
  | .str s => s
  | j => pyRepr j

/-- Python `fields.get(key)` on a decoded JSON object. -/
def jGet (fields : List (Str × Json)) (key : Str) : Option Json :=
  match fields with
  | [] => none
  | (k, v) :: rest => if k = key then some v else jGet rest key

/-- Python `fields.get(key, default)`. -/
def jGetD (fields : List (Str × Json)) (key : Str) (d : Json) : Json :=
  (jGet fields key).getD d

/-- The exception message raised by `parse_json` (common.py line 106). -/
def malformed_json_message : Str := chars "Unexpected JSON from Keycloak admin command"

/-- `parse_json(stdout)` (common.py lines 102-106).  The external JSON
decoder is modelled by the argument: `none` stands for a
`json.JSONDecodeError`, `some j` for a successful decode (an empty
stdout decodes to `null` via the `stdout or "null"` fallback). -/
def parse_json (decoded : Option Json) : Except Str Json :=
  match decoded with
  | none => .error malformed_json_message
  | some j => .ok j

/-- `parse_id(stdout)` (common.py lines 109-120), applied to the decode
outcome of the command output: a non-empty list whose first element is an
object yields the truthy `id` of that first entry (else the empty
string), a bare object yields its own truthy `id`, and every other
decoded shape yields the empty string.  `get_id` (keycloak_admin.py
lines 92-107) returns this value directly. -/
def parse_id (decoded : Option Json) : Except Str Str :=
  match parse_json decoded with
  | .error e => .error e
  | .ok payload =>
    match payload with
    | .arr (first :: _) =>
      match first with
      | .obj fields =>
        let value := jGetD fields (chars "id") (.str [])
        .ok (if pyTruthy value then pyStr value else [])
      | _ => .ok []
    | .obj fields =>
      let value := jGetD fields (chars "id") (.str [])
      .ok (if pyTruthy value then pyStr value else [])
    | _ => .ok []

/-- `ClientDefinition` (keycloak_admin.py lines 26-32). -/
structure ClientDefinition where
  name : Str
  direct_access_grants : Bool
  standard_flow : Bool
  secret_env_key : Str
  service_accounts : Bool
deriving DecidableEq

/-- The record built for one entry of clients.json
(keycloak_admin.py lines 371-377). -/
def client_of_entry (name : Str) (fields : List (Str × Json)) : ClientDefinition :=
  { name := name
  , direct_access_grants := pyTruthy (jGetD fields (chars "directAccessGrants") (.bool false))
  , standard_flow := pyTruthy (jGetD fields (chars "standardFlow") (.bool true))
  , secret_env_key := pstrip (pyStr (jGetD fields (chars "secretEnvKey") (.str [])))
  , service_accounts := pyTruthy (jGetD fields (chars "serviceAccounts") (.bool false)) }

/-- The validation loop of `parse_clients_file` (keycloak_admin.py lines
360-379) over the decoded root object's entries.  JSON object keys are
always strings, so of the `isinstance(client_name, str)` / emptiness
guard only the emptiness check is reachable in the model. -/
def parse_clients_entries : List (Str × Json) → Except Str (List (Str × ClientDefinition))
  | [] => .ok []
  | (name, cfg) :: rest =>
    if name = [] then .error (chars "clients.json contains an invalid client name")
    else
      match cfg with
      | .obj fields =>
        if pstrip (pyStr (jGetD fields (chars "secretEnvKey") (.str []))) = [] then
          .error (chars "clients.json entry " ++ quoted name ++ chars " requires secretEnvKey")
        else
          match parse_clients_entries rest with
          | .error e => .error e
          | .ok tail => .ok ((name, client_of_entry name fields) :: tail)
      | _ => .error (chars "clients.json entry " ++ quoted name ++ chars " must be an object")

/-- `parse_clients_file(path)` (keycloak_admin.py lines 352-379), applied
to the decode outcome of the file's text (`none` = invalid JSON). -/
def parse_clients_file (decoded : Option Json) : Except Str (List (Str × ClientDefinition)) :=
  match parse_json decoded with
  | .error e => .error e
  | .ok raw =>
    match raw with
    | .obj entries => parse_clients_entries entries
    | _ => .error (chars "clients.json must be a JSON object keyed by client name")

/-- `bool_to_kc(value)` (common.py lines 123-124). -/
def bool_to_kc (value : Bool) : Str := if value then chars "true" else chars "false"

/-- One kcadm invocation issued by the reconciliation engine, with the
`-s field=value` assignments kept structured. -/
inductive KcCall where
  | create (resource : Str) (settings : List (Str × Str))
  | update (path : Str) (settings : List (Str × Str))
deriving DecidableEq

/-- Whether a call is an update call. -/
def KcCall.isUpdate : KcCall → Bool
  | .update _ _ => true
  | .create _ _ => false

/-- The `-s` assignments of the client create call
(keycloak_admin.py lines 240-261). -/
def client_create_settings (d : ClientDefinition) : List (Str × Str) :=
  [ (chars "clientId", d.name)
  , (chars "protocol", chars "openid-connect")
  , (chars "enabled", chars "true")
  , (chars "publicClient", chars "false")
  , (chars "directAccessGrantsEnabled", bool_to_kc d.direct_access_grants)
  , (chars "standardFlowEnabled", bool_to_kc d.standard_flow)
  , (chars "serviceAccountsEnabled", bool_to_kc d.service_accounts) ]

/-- The `-s` assignments of the client update call
(keycloak_admin.py lines 268-288): the secret assignment is appended
only when `secret` is truthy. -/
def client_update_settings (d : ClientDefinition) (secret : Str) : List (Str × Str) :=
  [ (chars "protocol", chars "openid-connect")
  , (chars "enabled", chars "true")
  , (chars "publicClient", chars "false")
  , (chars "directAccessGrantsEnabled", bool_to_kc d.direct_access_grants)
  , (chars "standardFlowEnabled", bool_to_kc d.standard_flow)
  , (chars "serviceAccountsEnabled", bool_to_kc d.service_accounts) ]
  ++ (if secret ≠ [] then [(chars "secret", secret)] else [])

/-- `ensure_client(definition, secret)` (keycloak_admin.py lines
234-290), modelled as the list of create/update calls it issues.  The
two `get_id` lookups are external reads whose results are supplied as
`lookup1` (initial resolve) and `lookup2` (re-resolve after create); an
empty string means "not found", exactly as `parse_id` reports it. -/
def ensure_client (d : ClientDefinition) (secret : Str) (lookup1 lookup2 : Str) :
    Except Str (List KcCall) :=
  if lookup1 = [] then
    if lookup2 = [] then
      .error (chars "Unable to resolve client UUID for " ++ quoted d.name)
    else
      .ok [ .create (chars "clients") (client_create_settings d)
          , .update (chars "clients/" ++ lookup2) (client_update_settings d secret) ]
  else
    .ok [ .update (chars "clients/" ++ lookup1) (client_update_settings d secret) ]

/-- Outcome of the underlying `subprocess.run` call: the executable may
be absent (`FileNotFoundError`), or the process ran to completion with
an exit code and captured output. -/
inductive ProcOutcome where
  | fileNotFound
  | completed (returncode : Int) (stdout stderr : Str)

/-- The two exception paths of `run` (common.py lines 47-53), tagged by
raise site: the `FileNotFoundError` handler versus the
`CalledProcessError` handler. -/
inductive RunError where
  | dependencyMissing (msg : Str)
  | commandFailed (msg : Str)
deriving DecidableEq

/-- `subprocess.CompletedProcess` as `run` returns it. -/
structure CompletedProcess where
  returncode : Int
  stdout : Str
  stderr : Str
deriving DecidableEq

/-- Python `" ".join(cmd)`. -/
def join_space : List Str → Str
  | [] => []
  | [w] => w
  | w :: ws => w ++ ' ' :: join_space ws

/-- `run(cmd, logger, check)` (common.py lines 32-62) over a given
process outcome.  With `check` set, a non-zero exit code surfaces as a
`CalledProcessError` whose handler raises `BootstrapError` with stderr,
falling back to stdout, falling back to a synthesized message; a missing
executable raises the dependency message regardless of `check`. -/
def run (cmd : List Str) (check : Bool) (outcome : ProcOutcome) :
    Except RunError CompletedProcess :=
  match outcome with
  | .fileNotFound => .error (.dependencyMissing (chars "Missing dependency: " ++ cmd.headD []))
  | .completed rc out err =>
    if check ∧ rc ≠ 0 then
      let o := pstrip out
      let e := pstrip err
      let message :=
        if e ≠ [] then e
        else if o ≠ [] then o
        else chars "Command failed (" ++ intToChars rc ++ chars "): " ++ join_space cmd
      .error (.commandFailed message)
    else .ok ⟨rc, out, err⟩

/-- Contiguous-substring test: does `needle` occur inside the second
argument?  (`re.search` with a literal pattern.) -/
def strContains (needle : Str) : Str → Bool
  | [] => needle.isEmpty
  | c :: rest => needle.isPrefixOf (c :: rest) || strContains needle rest

/-- The `SENSITIVE` regex of redact-realm.py (lines 11-13):
`(secret|password|private[_-]?key|token|credential)` searched
case-insensitively, i.e. an infix match against the lowercased name. -/
def is_sensitive_key (k : Str) : Bool :=
  let l := k.map Char.toLower
  strContains (chars "secret") l || strContains (chars "password") l ||
    strContains (chars "privatekey") l || strContains (chars "private_key") l ||
    strContains (chars "private-key") l || strContains (chars "token") l ||
    strContains (chars "credential") l

/-- The placeholder token written by redaction. -/
def redact_placeholder : Str := chars "__PLACEHOLDER__"

/-- The redaction guard (redact-realm.py line 20):
`isinstance(value, str) and value and SENSITIVE.search(str(key))`. -/
def redact_hit (value : Json) (key : Str) : Bool :=
  (match value with
    | .str s => decide (s ≠ [])
    | _ => false)
  && is_sensitive_key key

/-- A file content ends with exactly one trailing newline: its last
character is a newline and the character before it is not. -/
def ends_with_one_newline (cs : Str) : Prop :=
  cs.getLast? = some '\n' ∧ cs.dropLast.getLast? ≠ some '\n'

instance (cs : Str) : Decidable (ends_with_one_newline cs) := by
  unfold ends_with_one_newline
  infer_instance

/-- The value `load_env` ends up associating with `key`: the assignment
made by the last line that parses to this key, if any.  Used to reason
about "last occurrence wins". -/
def last_env_assign (key : Str) : List Str → Option Str
  | [] => none
  | l :: ls =>
    match last_env_assign key ls with
    | some v => some v
    | none =>
      match parse_env_line l with
      | none => none
      | some (k, v) => if k = key then some v else none

/-- The lines `set_env_value` starts from: none for a missing file,
`splitlines` of the content otherwise. -/
def content_lines (content : Option Str) : List Str :=
  match content with
  | none => []
  | some cs => py_splitlines cs

/-- The claim-side failure condition for a clients.json entry's secret
key name: the `secretEnvKey` field is absent, or is a blank string. -/
def secret_absent_or_blank (fields : List (Str × Json)) : Bool :=
  match jGet fields (chars "secretEnvKey") with
  | none => true
  | some (.str s) => decide (pstrip s = [])
  | some _ => false

mutual
/-- `redact(node)` (redact-realm.py lines 16-29): rebuild mappings
field by field, replacing guarded values with the placeholder and
recursing otherwise; map over sequences; return scalars unchanged. -/
def redact : Json → Json
  | .obj fields => .obj (redactFields fields)
  | .arr items => .arr (redactItems items)
  | node => node

/-- The field loop of `redact` over a mapping's items. -/
def redactFields : List (Str × Json) → List (Str × Json)
  | [] => []
  | (key, value) :: rest =>
    (if redact_hit value key then (key, .str redact_placeholder) else (key, redact value))
      :: redactFields rest

/-- The comprehension of `redact` over a sequence. -/
def redactItems : List Json → List Json
  | [] => []
  | item :: rest => redact item :: redactItems rest
end

/-! ### C8: `run` error handling -/

/-- C8: with `check` true a non-zero exit code raises the command-failure
error carrying stderr, falling back to stdout, falling back to a
synthesized message; with `check` false a completed process never
raises, returning the result for the caller to inspect; a missing
executable raises the distinct dependency-missing error. -/
theorem C8_run_error_handling :
    (∀ (cmd : List Str) (rc : Int) (out err : Str), rc ≠ 0 →
      ∃ msg, run cmd true (.completed rc out err) = .error (.commandFailed msg)
        ∧ (pstrip err ≠ [] → msg = pstrip err)
        ∧ (pstrip err = [] → pstrip out ≠ [] → msg = pstrip out)
        ∧ (pstrip err = [] → pstrip out = [] →
            msg = chars "Command failed (" ++ intToChars rc ++ chars "): " ++ join_space cmd))
    ∧ (∀ (cmd : List Str) (rc : Int) (out err : Str),
        run cmd false (.completed rc out err) = .ok ⟨rc, out, err⟩)
    ∧ (∀ (cmd : List Str) (check : Bool), run cmd check .fileNotFound =
        .error (.dependencyMissing (chars "Missing dependency: " ++ cmd.headD [])))
    ∧ (∀ m m2, RunError.dependencyMissing m ≠ RunError.commandFailed m2) := by
  refine ⟨?_, ?_, ?_, ?_⟩
  · intro cmd rc out err hrc
    refine ⟨if pstrip err ≠ [] then pstrip err
        else if pstrip out ≠ [] then pstrip out
        else chars "Command failed (" ++ intToChars rc ++ chars "): " ++ join_space cmd,
      ?_, ?_, ?_, ?_⟩
    · simp only [run, hrc]
      simp only [ne_eq, not_false_eq_true, and_true, if_true, ite_not]
      simp [hrc]
    · intro h
      simp [h]
    · intro h1 h2
      simp [h1, h2]
    · intro h1 h2
      simp [h1, h2]
  · intro cmd rc out err
    simp [run]
  · intro cmd check
    rfl
  · intro m m2 h
    exact RunError.noConfusion h

/-- Witness for C8 at a concrete failed command with non-blank stderr. -/
theorem C8_witness :
    (1 : Int) ≠ 0 ∧
      ∃ msg, run [chars "kcadm"] true (.completed 1 (chars "") (chars "boom")) =
          .error (.commandFailed msg)
        ∧ (pstrip (chars "boom") ≠ [] → msg = pstrip (chars "boom"))
        ∧ (pstrip (chars "boom") = [] → pstrip (chars "") ≠ [] → msg = pstrip (chars ""))
        ∧ (pstrip (chars "boom") = [] → pstrip (chars "") = [] →
            msg = chars "Command failed (" ++ intToChars 1 ++ chars "): " ++
              join_space [chars "kcadm"]) :=
  ⟨by decide, C8_run_error_handling.1 [chars "kcadm"] 1 (chars "") (chars "boom") (by decide)⟩

/-! ### C7: `ensure_client` convergence update -/

/-- C7: whenever the client resolves (directly or after creation),
`ensure_client` issues exactly one update call — also when the client
already existed — whose assignments always set `publicClient` to false,
take the three capability flags from the definition, and include a
`secret` assignment exactly when the resolved secret is non-empty. -/
theorem C7_ensure_client_update :
    ∀ (d : ClientDefinition) (secret lookup1 lookup2 : Str),
      lookup1 ≠ [] ∨ lookup2 ≠ [] →
      ∃ calls, ensure_client d secret lookup1 lookup2 = .ok calls
        ∧ calls.filter KcCall.isUpdate =
            [KcCall.update (chars "clients/" ++ (if lookup1 ≠ [] then lookup1 else lookup2))
              (client_update_settings d secret)]
        ∧ (chars "publicClient", chars "false") ∈ client_update_settings d secret
        ∧ (chars "directAccessGrantsEnabled", bool_to_kc d.direct_access_grants)
            ∈ client_update_settings d secret
        ∧ (chars "standardFlowEnabled", bool_to_kc d.standard_flow)
            ∈ client_update_settings d secret
        ∧ (chars "serviceAccountsEnabled", bool_to_kc d.service_accounts)
            ∈ client_update_settings d secret
        ∧ ((∃ v, (chars "secret", v) ∈ client_update_settings d secret) ↔ secret ≠ [])
        ∧ (∀ v, (chars "secret", v) ∈ client_update_settings d secret → v = secret) := by
  intro d secret lookup1 lookup2 hres
  have hmem₁ : (chars "publicClient", chars "false") ∈ client_update_settings d secret := by
    simp [client_update_settings]
  have hmem₂ : (chars "directAccessGrantsEnabled", bool_to_kc d.direct_access_grants)
      ∈ client_update_settings d secret := by
    simp [client_update_settings]
  have hmem₃ : (chars "standardFlowEnabled", bool_to_kc d.standard_flow)
      ∈ client_update_settings d secret := by
    simp [client_update_settings]
  have hmem₄ : (chars "serviceAccountsEnabled", bool_to_kc d.service_accounts)
      ∈ client_update_settings d secret := by
    simp [client_update_settings]
  have hfixed : ∀ v, (chars "secret", v) ∉
      [ (chars "protocol", chars "openid-connect")
      , (chars "enabled", chars "true")
      , (chars "publicClient", chars "false")
      , (chars "directAccessGrantsEnabled", bool_to_kc d.direct_access_grants)
      , (chars "standardFlowEnabled", bool_to_kc d.standard_flow)
      , (chars "serviceAccountsEnabled", bool_to_kc d.service_accounts) ] := by
    intro v hv
    simp only [List.mem_cons, List.not_mem_nil, or_false, Prod.mk.injEq] at hv
    rcases hv with ⟨h, _⟩ | ⟨h, _⟩ | ⟨h, _⟩ | ⟨h, _⟩ | ⟨h, _⟩ | ⟨h, _⟩ <;> revert h <;> decide
  have hsecret_iff : (∃ v, (chars "secret", v) ∈ client_update_settings d secret) ↔
      secret ≠ [] := by
    constructor
    · rintro ⟨v, hv⟩
      rcases List.mem_append.mp hv with h | h
      · exact absurd h (hfixed v)
      · by_contra hs
        simp [hs] at h
    · intro hs
      exact ⟨secret, List.mem_append.mpr (Or.inr (by simp [hs]))⟩
  have hsecret_val : ∀ v, (chars "secret", v) ∈ client_update_settings d secret →
      v = secret := by
    intro v hv
    rcases List.mem_append.mp hv with h | h
    · exact absurd h (hfixed v)
    · by_cases hs : secret = []
      · simp [hs] at h
      · simp [hs] at h
        exact h
  by_cases h1 : lookup1 = []
  · have h2 : lookup2 ≠ [] := by
      rcases hres with h | h
      · exact absurd h1 h
      · exact h
    refine ⟨[ .create (chars "clients") (client_create_settings d)
            , .update (chars "clients/" ++ lookup2) (client_update_settings d secret) ],
        ?_, ?_, hmem₁, hmem₂, hmem₃, hmem₄, hsecret_iff, hsecret_val⟩
    · simp [ensure_client, h1, h2]
    · simp [h1, List.filter, KcCall.isUpdate]
  · refine ⟨[ .update (chars "clients/" ++ lookup1) (client_update_settings d secret) ],
        ?_, ?_, hmem₁, hmem₂, hmem₃, hmem₄, hsecret_iff, hsecret_val⟩
    · simp [ensure_client, h1]
    · simp [h1, List.filter, KcCall.isUpdate]

/-- Witness for C7 at a concrete pre-existing client with a non-empty
secret. -/
theorem C7_witness :
    (chars "u1" ≠ [] ∨ ([] : Str) ≠ []) ∧
      ∃ calls,
        ensure_client
            ⟨chars "app", true, true, chars "APP_SECRET", false⟩
            (chars "s3cr3t") (chars "u1") [] = .ok calls
        ∧ calls.filter KcCall.isUpdate =
            [KcCall.update (chars "clients/" ++ (if chars "u1" ≠ [] then chars "u1" else []))
              (client_update_settings ⟨chars "app", true, true, chars "APP_SECRET", false⟩
                (chars "s3cr3t"))]
        ∧ (chars "publicClient", chars "false")
            ∈ client_update_settings ⟨chars "app", true, true, chars "APP_SECRET", false⟩
                (chars "s3cr3t")
        ∧ (chars "directAccessGrantsEnabled", bool_to_kc true)
            ∈ client_update_settings ⟨chars "app", true, true, chars "APP_SECRET", false⟩
                (chars "s3cr3t")
        ∧ (chars "standardFlowEnabled", bool_to_kc true)
            ∈ client_update_settings ⟨chars "app", true, true, chars "APP_SECRET", false⟩
                (chars "s3cr3t")
        ∧ (chars "serviceAccountsEnabled", bool_to_kc false)
            ∈ client_update_settings ⟨chars "app", true, true, chars "APP_SECRET", false⟩
                (chars "s3cr3t")
        ∧ ((∃ v, (chars "secret", v)
              ∈ client_update_settings ⟨chars "app", true, true, chars "APP_SECRET", false⟩
                  (chars "s3cr3t")) ↔ chars "s3cr3t" ≠ [])
        ∧ (∀ v, (chars "secret", v)
              ∈ client_update_settings ⟨chars "app", true, true, chars "APP_SECRET", false⟩
                  (chars "s3cr3t") → v = chars "s3cr3t") :=
  ⟨Or.inl (by decide),
    C7_ensure_client_update ⟨chars "app", true, true, chars "APP_SECRET", false⟩
      (chars "s3cr3t") (chars "u1") [] (Or.inl (by decide))⟩

/-! ### C5: `parse_id` / `get_id` -/

/-- C5: the id-query parse path raises the malformed-response error
exactly on undecodable output (never silently returning empty for it),
returns the empty string for a listing with zero matches (or a null
payload, the decode of empty output), and returns the id of the first
matching entry, both for list payloads and for single-object
payloads. -/
theorem C5_parse_id :
    (parse_id none = .error malformed_json_message)
    ∧ (∀ decoded, (∃ e, parse_id decoded = .error e) ↔ decoded = none)
    ∧ (parse_id (some (.arr [])) = .ok [])
    ∧ (parse_id (some .null) = .ok [])
    ∧ (∀ fields rest s, jGet fields (chars "id") = some (.str s) → s ≠ [] →
        parse_id (some (.arr (.obj fields :: rest))) = .ok s)
    ∧ (∀ fields s, jGet fields (chars "id") = some (.str s) → s ≠ [] →
        parse_id (some (.obj fields)) = .ok s) := by
  refine ⟨rfl, ?_, rfl, rfl, ?_, ?_⟩
  · intro decoded
    constructor
    · rintro ⟨e, he⟩
      cases decoded with
      | none => rfl
      | some j =>
        exfalso
        cases j with
        | arr items =>
          match items with
          | [] => simp [parse_id, parse_json] at he
          | first :: rest => cases first <;> simp [parse_id, parse_json] at he
        | obj fields => simp [parse_id, parse_json] at he
        | null => simp [parse_id, parse_json] at he
        | bool b => simp [parse_id, parse_json] at he
        | num n => simp [parse_id, parse_json] at he
        | str s => simp [parse_id, parse_json] at he
    · rintro rfl
      exact ⟨malformed_json_message, rfl⟩
  · intro fields rest s hid hs
    simp [parse_id, parse_json, jGetD, hid, pyTruthy, pyStr, hs]
  · intro fields s hid hs
    simp [parse_id, parse_json, jGetD, hid, pyTruthy, pyStr, hs]

/-- Witness for C5 at a concrete one-match listing. -/
theorem C5_witness :
    jGet [(chars "id", Json.str (chars "abc123"))] (chars "id") =
        some (.str (chars "abc123"))
    ∧ chars "abc123" ≠ []
    ∧ parse_id (some (.arr [.obj [(chars "id", Json.str (chars "abc123"))]])) =
        .ok (chars "abc123") :=
  ⟨by simp [jGet], by decide,
    C5_parse_id.2.2.2.2.1 [(chars "id", Json.str (chars "abc123"))] [] (chars "abc123")
      (by simp [jGet]) (by decide)⟩

/-! ### C9: `redact` -/

/-- C9 counterexample: the claim says every mapping field whose name
matches the sensitivity pattern has its value replaced by the
placeholder (with only empty strings exempt), but `redact` leaves a
sensitive field whose value is the number 5 entirely unchanged — only
non-empty string values are replaced. -/
theorem C9_counterexample :
    redact (.obj [(chars "token", .num 5)]) = .obj [(chars "token", .num 5)]
    ∧ is_sensitive_key (chars "token") = true
    ∧ Json.num 5 ≠ .str redact_placeholder := by
  refine ⟨?_, by decide, ?_⟩
  · simp [redact, redactFields, redact_hit]
  · intro h
    exact Json.noConfusion h

/-- The per-field action of `redactFields` on a member pair. -/
theorem redactFields_mem_of_mem (fields : List (Str × Json)) (key : Str) (v : Json)
    (hmem : (key, v) ∈ fields) :
    (if redact_hit v key = true then (key, Json.str redact_placeholder) else (key, redact v))
      ∈ redactFields fields := by
  induction fields with
  | nil => cases hmem
  | cons p rest ih =>
    rcases List.mem_cons.mp hmem with h | h
    · rw [← h]
      simp only [redactFields]
      exact List.mem_cons_self _ _
    · obtain ⟨key2, value2⟩ := p
      simp only [redactFields]
      exact List.mem_cons_of_mem _ (ih h)

/-- `redactFields` preserves the field names and their order. -/
theorem redactFields_map_fst (fields : List (Str × Json)) :
    (redactFields fields).map Prod.fst = fields.map Prod.fst := by
  induction fields with
  | nil => rfl
  | cons p rest ih =>
    obtain ⟨key, value⟩ := p
    by_cases h : redact_hit value key = true <;> simp [redactFields, h, ih]

/-- `redactItems` preserves the length of a sequence. -/
theorem redactItems_length (items : List Json) :
    (redactItems items).length = items.length := by
  induction items with
  | nil => rfl
  | cons x rest ih => simp [redactItems, ih]

/-- C9 (amended): `redact` preserves every mapping's keys and their
order; a sensitive-named field whose value is a non-empty string is
replaced by the placeholder; a sensitive-named field whose value is the
empty string stays unchanged; a non-sensitive field's value is redacted
recursively; sequences are redacted element-wise (same length); scalars
are returned unchanged — recursion happens only into mappings and
sequences. -/
theorem C9_redact_structure :
    (∀ fields, redact (.obj fields) = .obj (redactFields fields)
      ∧ (redactFields fields).map Prod.fst = fields.map Prod.fst
      ∧ (∀ key s, is_sensitive_key key = true → s ≠ [] →
          (key, Json.str s) ∈ fields → (key, Json.str redact_placeholder) ∈ redactFields fields)
      ∧ (∀ key, (key, Json.str []) ∈ fields →
          (key, Json.str []) ∈ redactFields fields)
      ∧ (∀ key v, is_sensitive_key key = false →
          (key, v) ∈ fields → (key, redact v) ∈ redactFields fields))
    ∧ (∀ items, redact (.arr items) = .arr (redactItems items)
        ∧ (redactItems items).length = items.length)
    ∧ redact .null = .null
    ∧ (∀ b, redact (.bool b) = .bool b)
    ∧ (∀ n, redact (.num n) = .num n)
    ∧ (∀ s, redact (.str s) = .str s) := by
  refine ⟨?_, ?_, ?_, ?_, ?_, ?_⟩
  · intro fields
    refine ⟨by simp [redact], redactFields_map_fst fields, ?_, ?_, ?_⟩
    · intro key s hsens hs hmem
      have h := redactFields_mem_of_mem fields key (Json.str s) hmem
      have hhit : redact_hit (Json.str s) key = true := by
        simp [redact_hit, hs, hsens]
      rwa [if_pos hhit] at h
    · intro key hmem
      have h := redactFields_mem_of_mem fields key (Json.str []) hmem
      have hhit : ¬ redact_hit (Json.str []) key = true := by
        simp [redact_hit]
      rw [if_neg hhit] at h
      have hred : redact (Json.str []) = Json.str [] := rfl
      rwa [hred] at h
    · intro key v hsens hmem
      have h := redactFields_mem_of_mem fields key v hmem
      have hhit : ¬ redact_hit v key = true := by
        simp [redact_hit, hsens]
      rwa [if_neg hhit] at h
  · intro items
    exact ⟨by simp [redact], redactItems_length items⟩
  · rfl
  · intro b
    rfl
  · intro n
    rfl
  · intro s
    rfl

/-- Witness for C9 at a concrete mapping with a sensitive non-empty
string field. -/
theorem C9_witness :
    is_sensitive_key (chars "clientSecret") = true
    ∧ chars "hunter2" ≠ []
    ∧ (chars "clientSecret", Json.str (chars "hunter2"))
        ∈ [(chars "clientSecret", Json.str (chars "hunter2"))]
    ∧ (chars "clientSecret", Json.str redact_placeholder)
        ∈ redactFields [(chars "clientSecret", Json.str (chars "hunter2"))] :=
  ⟨by decide, by decide, by simp,
    (C9_redact_structure.1 [(chars "clientSecret", Json.str (chars "hunter2"))]).2.2.1
      (chars "clientSecret") (chars "hunter2") (by decide) (by decide) (by simp)⟩

/-! ### Env-store lemmas -/

/-- The rewrite loop replaces every matching line and reports whether
any line matched. -/
theorem set_env_loop_eq (key value : Str) (ls : List Str) :
    set_env_loop key value ls =
      (ls.map (fun l => if (key ++ ['=']).isPrefixOf l then key ++ '=' :: value else l),
        ls.any (fun l => (key ++ ['=']).isPrefixOf l)) := by
  induction ls with
  | nil => rfl
  | cons l rest ih =>
    simp only [set_env_loop, ih, List.map_cons, List.any_cons]
    by_cases h : (key ++ ['=']).isPrefixOf l = true <;> simp [h]

/-- No line produced by `py_splitlines` contains a newline. -/
theorem splitlines_no_newline (cs : Str) : ∀ l ∈ py_splitlines cs, '\n' ∉ l := by
  induction cs with
  | nil =>
    intro l hl
    cases hl
  | cons c rest ih =>
    intro l hl
    by_cases hc : c = '\n'
    · subst hc
      simp only [py_splitlines, if_pos rfl] at hl
      rcases List.mem_cons.mp hl with rfl | hl2
      · simp
      · exact ih l hl2
    · simp only [py_splitlines, if_neg hc] at hl
      rcases hsplit : py_splitlines rest with _ | ⟨x, xs⟩ <;> rw [hsplit] at hl
      · rcases List.mem_singleton.mp hl with rfl
        intro hmem
        rcases List.mem_singleton.mp hmem with rfl
        exact hc rfl
      · rcases List.mem_cons.mp hl with rfl | hl2
        · intro hmem
          rcases List.mem_cons.mp hmem with heq | hmem2
          · exact hc heq.symm
          · exact ih x (hsplit ▸ List.mem_cons_self x xs) hmem2
        · exact ih l (hsplit ▸ List.mem_cons_of_mem x hl2)

/-- Splitting a newline-free line followed by a newline peels off that
line. -/
theorem splitlines_append_line (l rest : Str) (hno : '\n' ∉ l) :
    py_splitlines (l ++ '\n' :: rest) = l :: py_splitlines rest := by
  induction l with
  | nil => simp [py_splitlines]
  | cons c cl ih =>
    have hc : ¬ c = '\n' := by
      intro hc
      exact hno (hc ▸ List.mem_cons_self c cl)
    have hcl : '\n' ∉ cl := fun hm => hno (List.mem_cons_of_mem c hm)
    simp only [List.cons_append, py_splitlines, if_neg hc, List.append_eq, ih hcl]

/-- Writing newline-joined lines with a final newline and reading them
back recovers the lines, provided there is at least one line and no
line contains a newline. -/
theorem splitlines_join_roundtrip (ls : List Str) (hne : ls ≠ [])
    (hno : ∀ l ∈ ls, '\n' ∉ l) :
    py_splitlines (join_nl ls ++ ['\n']) = ls := by
  induction ls with
  | nil => exact absurd rfl hne
  | cons l rest ih =>
    cases rest with
    | nil =>
      have h := splitlines_append_line l [] (hno l (List.mem_cons_self l []))
      simpa [join_nl, py_splitlines] using h
    | cons m ms =>
      have hjoin : join_nl (l :: m :: ms) ++ ['\n'] = l ++ '\n' :: (join_nl (m :: ms) ++ ['\n']) := by
        simp [join_nl]
      rw [hjoin, splitlines_append_line l _ (hno l (List.mem_cons_self l (m :: ms)))]
      rw [ih (by simp) (fun x hx => hno x (List.mem_cons_of_mem l hx))]

/-- The last character of newline-joined lines is a newline exactly when
the last line is blank and there are at least two lines (given that no
line contains a newline). -/
theorem join_nl_getLast_newline (ls : List Str) (hne : ls ≠ [])
    (hno : ∀ l ∈ ls, '\n' ∉ l) :
    ((join_nl ls).getLast? = some '\n' ↔ (ls.getLast? = some [] ∧ 2 ≤ ls.length)) := by
  induction ls with
  | nil => exact absurd rfl hne
  | cons l rest ih =>
    cases rest with
    | nil =>
      simp only [join_nl, List.getLast?_singleton, List.length_singleton]
      constructor
      · intro h
        have hmem : '\n' ∈ l := by
          rcases List.getLast?_eq_some_iff.mp h with ⟨l2, hl2⟩
          rw [hl2]
          simp
        exact absurd hmem (hno l (List.mem_cons_self l []))
      · rintro ⟨-, h2⟩
        omega
    | cons m ms =>
      have hjoin : join_nl (l :: m :: ms) = l ++ '\n' :: join_nl (m :: ms) := by
        simp [join_nl]
      rw [hjoin]
      by_cases hJ : join_nl (m :: ms) = []
      · have hlast : (l ++ '\n' :: join_nl (m :: ms)).getLast? = some '\n' := by
          rw [hJ]
          simp
        have hm : m = [] ∧ ms = [] := by
          cases ms with
          | nil =>
            simp [join_nl] at hJ
            exact ⟨hJ, rfl⟩
          | cons m2 ms2 =>
            simp [join_nl] at hJ
        rw [hlast]
        obtain ⟨hm1, hm2⟩ := hm
        subst hm1
        subst hm2
        simp
      · have hlast : (l ++ '\n' :: join_nl (m :: ms)).getLast? = (join_nl (m :: ms)).getLast? := by
          have h1 : (l ++ '\n' :: join_nl (m :: ms)).getLast? = ('\n' :: join_nl (m :: ms)).getLast? :=
            List.getLast?_append_of_ne_nil l (by simp)
          have h2 : ('\n' :: join_nl (m :: ms)).getLast? = (join_nl (m :: ms)).getLast? := by
            have : '\n' :: join_nl (m :: ms) = ['\n'] ++ join_nl (m :: ms) := rfl
            rw [this]
            exact List.getLast?_append_of_ne_nil ['\n'] hJ
          rw [h1, h2]
        rw [hlast]
        have ihspec := ih (by simp) (fun x hx => hno x (List.mem_cons_of_mem l hx))
        rw [ihspec]
        have hlast2 : (l :: m :: ms).getLast? = (m :: ms).getLast? := rfl
        have hlen : 2 ≤ (l :: m :: ms).length := by
          simp [List.length_cons]
        constructor
        · rintro ⟨h1, -⟩
          exact ⟨h1, hlen⟩
        · rintro ⟨h1, -⟩
          refine ⟨h1, ?_⟩
          cases ms with
          | nil =>
            exfalso
            have : m = [] := by simpa using h1
            subst this
            exact hJ (by simp [join_nl])
          | cons m2 ms2 =>
            simp [List.length_cons]

/-! ### C3: `set_env_value` rewrite behavior -/

/-- C3 counterexample: on a file with two lines for the same key,
`set_env_value` rewrites both — the second line is not preserved
unchanged as the claim states. -/
theorem C3_counterexample :
    set_env_value (some (chars "A=1\nA=2\n")) (chars "A") (chars "9") = chars "A=9\nA=9\n"
    ∧ (py_splitlines (chars "A=9\nA=9\n"))[1]? = some (chars "A=9")
    ∧ chars "A=9" ≠ chars "A=2" := ⟨by decide, by decide, by decide⟩

/-- When no line matches the key, the rewrite loop leaves every line
unchanged. -/
theorem map_noop_of_no_match (key value : Str) (lines : List Str)
    (h : ¬ lines.any (fun l => (key ++ ['=']).isPrefixOf l) = true) :
    lines.map (fun l => if (key ++ ['=']).isPrefixOf l then key ++ '=' :: value else l) =
      lines := by
  have hall : ∀ l ∈ lines,
      (if (key ++ ['=']).isPrefixOf l then key ++ '=' :: value else l) = l := by
    intro l hl
    have hm : ¬ (key ++ ['=']).isPrefixOf l = true := by
      intro hm
      exact h (List.any_eq_true.mpr ⟨l, hl, hm⟩)
    simp [hm]
  conv_rhs => rw [← List.map_id lines]
  exact List.map_congr_left hall

/-- C3 (amended): `set_env_value` replaces every line starting with
`key=` (not only the first) by `key=value`, keeping all other lines and
their order; only when no line matches is a `key=value` line appended at
the end; a missing file is written as the single line `key=value`. -/
theorem C3_set_env_rewrite :
    ∀ (cs key value : Str),
      (set_env_value (some cs) key value =
        join_nl
          (if (py_splitlines cs).any (fun l => (key ++ ['=']).isPrefixOf l) then
            (py_splitlines cs).map
              (fun l => if (key ++ ['=']).isPrefixOf l then key ++ '=' :: value else l)
          else py_splitlines cs ++ [key ++ '=' :: value]) ++ ['\n'])
      ∧ set_env_value none key value = (key ++ '=' :: value) ++ ['\n'] := by
  intro cs key value
  constructor
  · simp only [set_env_value, set_env_loop_eq]
    by_cases h : (py_splitlines cs).any (fun l => (key ++ ['=']).isPrefixOf l) = true
    · simp [h]
    · simp only [h, if_neg, Bool.false_eq_true, not_false_eq_true, if_false]
      rw [map_noop_of_no_match key value _ h]
  · rfl

/-! ### C4: trailing newline guarantee -/

/-- C4 counterexample: rewriting key `A` in a file whose content ends
with a blank line yields a file ending in two newlines, not exactly
one. -/
theorem C4_counterexample :
    set_env_value (some (chars "A=1\n\n")) (chars "A") (chars "9") = chars "A=9\n\n"
    ∧ ¬ ends_with_one_newline (chars "A=9\n\n") := ⟨by decide, by decide⟩

/-- A `key=value` line contains no newline when neither part does. -/
theorem kv_no_newline (key value : Str) (hkey : '\n' ∉ key) (hvalue : '\n' ∉ value) :
    '\n' ∉ key ++ '=' :: value := by
  intro hmem
  rcases List.mem_append.mp hmem with h | h
  · exact hkey h
  · rcases List.mem_cons.mp h with h2 | h2
    · cases h2
    · exact hvalue h2

/-- A `key=value` line is never empty. -/
theorem kv_ne_nil (key value : Str) : key ++ '=' :: value ≠ [] := by
  simp

/-- A non-empty pattern is a prefix of nothing. -/
theorem isPrefixOf_nil_eq_false (key : Str) :
    (key ++ ['=']).isPrefixOf ([] : Str) = false := by
  cases key <;> rfl

/-- Exactly-one-trailing-newline characterization for the written file:
it fails precisely when the final written line is blank and is not the
only line. -/
theorem ends_with_one_newline_join (out : List Str) (hne : out ≠ [])
    (hno : ∀ l ∈ out, '\n' ∉ l) :
    ends_with_one_newline (join_nl out ++ ['\n']) ↔
      ¬ (out.getLast? = some [] ∧ 2 ≤ out.length) := by
  unfold ends_with_one_newline
  rw [List.getLast?_concat, List.dropLast_concat]
  simp only [true_and]
  exact not_congr (join_nl_getLast_newline out hne hno)

/-- C4 (amended): the file written by `set_env_value` always ends with a
newline; it ends with exactly one trailing newline iff no line of the
prior content matched the key (append case) or the prior content's last
line is non-blank — trailing blank lines of the prior content survive a
replacement and then leave more than one trailing newline.  Key and
value are assumed newline-free (a value containing a newline can itself
break the guarantee). -/
theorem C4_trailing_newline :
    ∀ (content : Option Str) (key value : Str),
      '\n' ∉ key → '\n' ∉ value →
      (set_env_value content key value).getLast? = some '\n'
      ∧ (ends_with_one_newline (set_env_value content key value) ↔
          (∀ cs, content = some cs →
            ¬ (py_splitlines cs).any (fun l => (key ++ ['=']).isPrefixOf l) = true
            ∨ (py_splitlines cs).getLast? ≠ some [])) := by
  intro content key value hkey hvalue
  have hkv : '\n' ∉ key ++ '=' :: value := kv_no_newline key value hkey hvalue
  have main : ∀ lines : List Str, (∀ l ∈ lines, '\n' ∉ l) →
      ((join_nl
          (if lines.any (fun l => (key ++ ['=']).isPrefixOf l) then
            lines.map (fun l => if (key ++ ['=']).isPrefixOf l then key ++ '=' :: value else l)
          else lines ++ [key ++ '=' :: value]) ++ ['\n']).getLast? = some '\n'
        ∧ (ends_with_one_newline
            (join_nl
              (if lines.any (fun l => (key ++ ['=']).isPrefixOf l) then
                lines.map (fun l => if (key ++ ['=']).isPrefixOf l then key ++ '=' :: value else l)
              else lines ++ [key ++ '=' :: value]) ++ ['\n']) ↔
          (¬ lines.any (fun l => (key ++ ['=']).isPrefixOf l) = true
            ∨ lines.getLast? ≠ some []))) := by
    intro lines hno
    by_cases hany : lines.any (fun l => (key ++ ['=']).isPrefixOf l) = true
    · have hlines_ne : lines ≠ [] := by
        intro h
        rw [h] at hany
        simp at hany
      have hout_ne : lines.map
          (fun l => if (key ++ ['=']).isPrefixOf l then key ++ '=' :: value else l) ≠ [] := by
        simpa using hlines_ne
      have hout_no : ∀ l ∈ lines.map
          (fun l => if (key ++ ['=']).isPrefixOf l then key ++ '=' :: value else l),
          '\n' ∉ l := by
        intro l hl
        rcases List.mem_map.mp hl with ⟨x, hx, rfl⟩
        by_cases hm : (key ++ ['=']).isPrefixOf x = true
        · simpa [hm] using hkv
        · simpa [hm] using hno x hx
      rw [if_pos hany]
      refine ⟨List.getLast?_concat _, ?_⟩
      rw [ends_with_one_newline_join _ hout_ne hout_no]
      rw [List.getLast?_map]
      obtain ⟨x, hlast⟩ : ∃ x, lines.getLast? = some x := by
        rcases hl : lines.getLast? with _ | x
        · exact absurd (List.getLast?_eq_none_iff.mp hl) hlines_ne
        · exact ⟨x, rfl⟩
      rw [hlast]
      by_cases hx : x = []
      · subst hx
        have hg : (if (key ++ ['=']).isPrefixOf ([] : Str) then key ++ '=' :: value
            else ([] : Str)) = [] := by
          rw [isPrefixOf_nil_eq_false]
          simp
        have hlen : 2 ≤ lines.length := by
          rcases hlines : lines with _ | ⟨a, rest⟩
          · exact absurd hlines hlines_ne
          · rcases rest with _ | ⟨b, rest2⟩
            · rw [hlines] at hlast
              have ha : a = [] := by simpa using hlast
              subst ha
              rw [hlines, List.any_cons] at hany
              simp [isPrefixOf_nil_eq_false] at hany
            · simp
        have hlenmap : 2 ≤ (lines.map
            (fun l => if (key ++ ['=']).isPrefixOf l then key ++ '=' :: value else l)).length := by
          simpa using hlen
        constructor
        · intro hcontra
          refine absurd ⟨?_, hlenmap⟩ hcontra
          simp only [Option.map_some']
          rw [hg]
        · rintro (h | h)
          · exact absurd hany h
          · exact absurd rfl h
      · have hg_ne : (if (key ++ ['=']).isPrefixOf x then key ++ '=' :: value else x) ≠ [] := by
          by_cases hm : (key ++ ['=']).isPrefixOf x = true
          · simp [hm]
          · simp [hm, hx]
        constructor
        · intro _
          right
          simp [hx]
        · rintro -
          rintro ⟨hcon, -⟩
          simp only [Option.map_some', Option.some.injEq] at hcon
          exact hg_ne hcon
    · have hout_ne : lines ++ [key ++ '=' :: value] ≠ [] := by simp
      have hout_no : ∀ l ∈ lines ++ [key ++ '=' :: value], '\n' ∉ l := by
        intro l hl
        rcases List.mem_append.mp hl with h | h
        · exact hno l h
        · rcases List.mem_singleton.mp h with rfl
          exact hkv
      rw [if_neg hany]
      refine ⟨List.getLast?_concat _, ?_⟩
      rw [ends_with_one_newline_join _ hout_ne hout_no]
      constructor
      · intro _
        exact Or.inl hany
      · rintro -
        rintro ⟨hcon, -⟩
        rw [List.getLast?_concat] at hcon
        simp at hcon
  cases content with
  | none =>
    have h := main [] (by intro l hl; cases hl)
    simp only [List.any_nil, List.nil_append, if_neg (by simp : ¬ (false = true))] at h
    have hr : set_env_value none key value = join_nl [key ++ '=' :: value] ++ ['\n'] := rfl
    rw [hr]
    refine ⟨h.1, ?_⟩
    rw [h.2]
    constructor
    · intro _ cs hcs
      cases hcs
    · intro _
      simp
  | some cs =>
    have h := main (py_splitlines cs) (splitlines_no_newline cs)
    have hr : set_env_value (some cs) key value =
        join_nl
          (if (py_splitlines cs).any (fun l => (key ++ ['=']).isPrefixOf l) then
            (py_splitlines cs).map
              (fun l => if (key ++ ['=']).isPrefixOf l then key ++ '=' :: value else l)
          else py_splitlines cs ++ [key ++ '=' :: value]) ++ ['\n'] := by
      simp only [set_env_value, set_env_loop_eq]
      by_cases hb : (py_splitlines cs).any (fun l => (key ++ ['=']).isPrefixOf l) = true
      · simp [hb]
      · simp only [hb, if_neg, Bool.false_eq_true, not_false_eq_true, if_false]
        rw [map_noop_of_no_match key value _ hb]
    rw [hr]
    refine ⟨h.1, ?_⟩
    rw [h.2]
    constructor
    · intro hd cs2 hcs2
      cases hcs2
      exact hd
    · intro hd
      exact hd cs rfl

/-- Witness for C4 at a concrete append to a well-formed file. -/
theorem C4_witness :
    '\n' ∉ chars "B" ∧ '\n' ∉ chars "2"
    ∧ ((set_env_value (some (chars "A=1\n")) (chars "B") (chars "2")).getLast? = some '\n'
      ∧ (ends_with_one_newline (set_env_value (some (chars "A=1\n")) (chars "B") (chars "2")) ↔
          (∀ cs, some (chars "A=1\n") = some cs →
            ¬ (py_splitlines cs).any (fun l => (chars "B" ++ ['=']).isPrefixOf l) = true
            ∨ (py_splitlines cs).getLast? ≠ some []))) :=
  ⟨by decide, by decide,
    C4_trailing_newline (some (chars "A=1\n")) (chars "B") (chars "2") (by decide) (by decide)⟩

/-! ### Env lookup lemmas -/

/-- Looking up after a dict assignment. -/
theorem env_get_assocSet (env : List (Str × Str)) (k v key : Str) :
    env_get (assocSet env k v) key = if k = key then v else env_get env key := by
  induction env with
  | nil => simp [assocSet, env_get]
  | cons p rest ih =>
    obtain ⟨k2, v2⟩ := p
    by_cases hk : k2 = k
    · subst hk
      simp only [assocSet, if_pos rfl]
      by_cases hkey : k2 = key <;> simp [env_get, hkey]
    · simp only [assocSet, if_neg hk]
      by_cases hkey : k2 = key
      · subst hkey
        have hne : ¬ k = k2 := fun h => hk h.symm
        simp [env_get, hne]
      · simp [env_get, hkey, ih]

/-- Looking up the fold that builds the env dict: the last line that
parses to the key wins, otherwise the accumulator's value stands. -/
theorem env_get_foldl (ls : List Str) : ∀ (env : List (Str × Str)) (key : Str),
    env_get (ls.foldl (fun env raw =>
      match parse_env_line raw with
      | none => env
      | some (k, v) => assocSet env k v) env) key =
    match last_env_assign key ls with
    | some v => v
    | none => env_get env key := by
  induction ls with
  | nil =>
    intro env key
    rfl
  | cons l rest ih =>
    intro env key
    rw [List.foldl_cons, ih]
    simp only [last_env_assign]
    rcases hres : last_env_assign key rest with _ | v
    · rcases hp : parse_env_line l with _ | ⟨k, v2⟩
      · dsimp only
      · dsimp only
        rw [env_get_assocSet]
        by_cases hk : k = key <;> simp [hk]
    · dsimp only

/-- `load_env` projected at one key is the last parsed assignment of
that key (or empty). -/
theorem env_get_load_env_lines (ls : List Str) (key : Str) :
    env_get (load_env_lines ls) key = (last_env_assign key ls).getD [] := by
  unfold load_env_lines
  rw [env_get_foldl]
  rcases h : last_env_assign key ls with _ | v <;> simp [h, env_get]

/-- Appending one line to the file: the new line's assignment wins when
it parses to the key. -/
theorem last_env_assign_append (key : Str) (ls : List Str) (l : Str) :
    last_env_assign key (ls ++ [l]) =
      match last_env_assign key [l] with
      | some v => some v
      | none => last_env_assign key ls := by
  induction ls with
  | nil =>
    simp only [List.nil_append]
    rcases h1 : last_env_assign key [l] with _ | v <;> dsimp only [last_env_assign]
  | cons x rest ih =>
    have hL : last_env_assign key ((x :: rest) ++ [l]) =
        match last_env_assign key (rest ++ [l]) with
        | some v => some v
        | none =>
          match parse_env_line x with
          | none => none
          | some (k, v) => if k = key then some v else none := rfl
    rw [hL, ih]
    rcases h1 : last_env_assign key [l] with _ | v <;> rfl

/-- A file with no line assigning the key contributes nothing at it. -/
theorem last_env_assign_eq_none (key : Str) (ls : List Str)
    (h : ∀ l ∈ ls, ∀ v, parse_env_line l ≠ some (key, v)) :
    last_env_assign key ls = none := by
  induction ls with
  | nil => rfl
  | cons x rest ih =>
    simp only [last_env_assign]
    rw [ih (fun l hl => h l (List.mem_cons_of_mem x hl))]
    rcases hp : parse_env_line x with _ | ⟨k, v⟩
    · rfl
    · simp only
      by_cases hk : k = key
      · subst hk
        exact absurd hp (h x (List.mem_cons_self x rest) v)
      · rw [if_neg hk]

/-- If every line of the file that assigns the key assigns `value`, and
at least one does, the lookup yields `value`. -/
theorem last_env_assign_const (key value : Str) (ls : List Str)
    (hall : ∀ l ∈ ls, ∀ k v, parse_env_line l = some (k, v) → k = key → v = value)
    (hex : ∃ l ∈ ls, parse_env_line l = some (key, value)) :
    last_env_assign key ls = some value := by
  induction ls with
  | nil =>
    obtain ⟨l, hl, -⟩ := hex
    cases hl
  | cons x rest ih =>
    simp only [last_env_assign]
    by_cases hrest : ∃ l ∈ rest, parse_env_line l = some (key, value)
    · rw [ih (fun l hl => hall l (List.mem_cons_of_mem x hl)) hrest]
    · have hnone : last_env_assign key rest = none := by
        apply last_env_assign_eq_none
        intro l hl v hp
        have hv : v = value := hall l (List.mem_cons_of_mem x hl) key v hp rfl
        exact hrest ⟨l, hl, hv ▸ hp⟩
      rw [hnone]
      obtain ⟨l, hl, hparse⟩ := hex
      rcases List.mem_cons.mp hl with rfl | hl2
      · rw [hparse]
        simp
      · exact absurd ⟨l, hl2, hparse⟩ hrest

/-! ### Strip and line-parsing lemmas -/

/-- The head surviving a `dropWhile` fails the predicate. -/
theorem dropWhile_head_not (p : Char → Bool) (l : List Char) (c : Char) (rest : List Char)
    (h : l.dropWhile p = c :: rest) : ¬ p c := by
  induction l with
  | nil => cases h
  | cons a as ih =>
    by_cases hp : p a
    · rw [List.dropWhile_cons_of_pos hp] at h
      exact ih h
    · rw [List.dropWhile_cons_of_neg hp] at h
      cases h
      exact hp

/-- Stripping a string whose first and last characters are not
whitespace changes nothing. -/
theorem pstrip_of_ends (l : Str)
    (hhead : ∀ c, l.head? = some c → ¬ c.isWhitespace)
    (hlast : ∀ c, l.getLast? = some c → ¬ c.isWhitespace) :
    pstrip l = l := by
  unfold pstrip lstripChars rstripChars
  have h1 : l.dropWhile Char.isWhitespace = l := by
    cases l with
    | nil => rfl
    | cons c rest => exact List.dropWhile_cons_of_neg (by simpa using hhead c rfl)
  rw [h1]
  have h2 : l.reverse.dropWhile Char.isWhitespace = l.reverse := by
    rcases hrev : l.reverse with _ | ⟨c, rest⟩
    · rfl
    · have hc : l.getLast? = some c := by
        rw [← List.head?_reverse, hrev]
        rfl
      rw [List.dropWhile_cons_of_neg (by simpa using hlast c hc)]
  rw [h2, List.reverse_reverse]

/-- A `dropWhile` fixed point of equal length is the list itself. -/
theorem dropWhile_eq_self_of_length (p : Char → Bool) (l : Str)
    (h : (l.dropWhile p).length = l.length) : l.dropWhile p = l :=
  (List.Sublist.length_eq (List.dropWhile_sublist p)).mp h

/-- A string fixed by `pstrip` is fixed by each one-sided strip. -/
theorem pstrip_eq_self_parts (v : Str) (h : pstrip v = v) :
    v.dropWhile Char.isWhitespace = v ∧ v.reverse.dropWhile Char.isWhitespace = v.reverse := by
  unfold pstrip lstripChars rstripChars at h
  have hlen := congrArg List.length h
  simp only [List.length_reverse] at hlen
  have hle1 : ((v.dropWhile Char.isWhitespace).reverse.dropWhile Char.isWhitespace).length ≤
      (v.dropWhile Char.isWhitespace).length := by
    have := (List.dropWhile_sublist (l := (v.dropWhile Char.isWhitespace).reverse)
      Char.isWhitespace).length_le
    simpa using this
  have hle2 : (v.dropWhile Char.isWhitespace).length ≤ v.length :=
    (List.dropWhile_sublist Char.isWhitespace).length_le
  have heq1 : (v.dropWhile Char.isWhitespace).length = v.length := by omega
  have hfix1 : v.dropWhile Char.isWhitespace = v := dropWhile_eq_self_of_length _ _ heq1
  refine ⟨hfix1, ?_⟩
  rw [hfix1] at h
  have heq2 := congrArg List.reverse h
  rw [List.reverse_reverse] at heq2
  exact heq2

/-- A string all of whose characters are non-whitespace is fixed by
`pstrip`. -/
theorem pstrip_of_all_not_ws (l : Str) (h : ∀ c ∈ l, ¬ c.isWhitespace) : pstrip l = l :=
  pstrip_of_ends l (fun c hc => h c (List.mem_of_mem_head? hc))
    (fun c hc => h c (List.mem_of_mem_getLast? hc))

/-- `takeWhile` up to the separator of a `key=value` line recovers the
key when the key itself contains no separator. -/
theorem takeWhile_kv (key value : Str) (hk : '=' ∉ key) :
    (key ++ '=' :: value).takeWhile (· ≠ '=') = key := by
  induction key with
  | nil => simp [List.takeWhile_cons]
  | cons c rest ih =>
    have hc : ¬ c = '=' := by
      intro hc
      exact hk (hc ▸ List.mem_cons_self c rest)
    have hrest : '=' ∉ rest := fun hm => hk (List.mem_cons_of_mem c hm)
    have hpc : (fun x => decide (x ≠ '=')) c = true := by simp [hc]
    rw [List.cons_append,
      List.takeWhile_cons_of_pos (p := fun x => decide (x ≠ '=')) (a := c)
        (l := rest ++ '=' :: value) hpc,
      ih hrest]

/-- `dropWhile` up to the separator of a `key=value` line leaves the
separator and the value. -/
theorem dropWhile_kv (key value : Str) (hk : '=' ∉ key) :
    (key ++ '=' :: value).dropWhile (· ≠ '=') = '=' :: value := by
  induction key with
  | nil => simp [List.dropWhile_cons]
  | cons c rest ih =>
    have hc : ¬ c = '=' := by
      intro hc
      exact hk (hc ▸ List.mem_cons_self c rest)
    have hrest : '=' ∉ rest := fun hm => hk (List.mem_cons_of_mem c hm)
    have hpc : (fun x => decide (x ≠ '=')) c = true := by simp [hc]
    rw [List.cons_append,
      List.dropWhile_cons_of_pos (p := fun x => decide (x ≠ '=')) (a := c)
        (l := rest ++ '=' :: value) hpc,
      ih hrest]

/-- A cons fixed by `dropWhile` has a head failing the predicate. -/
theorem dropWhile_fix_head_not (p : Char → Bool) (c : Char) (rest : List Char)
    (h : (c :: rest).dropWhile p = c :: rest) : ¬ p c := by
  intro hp
  rw [List.dropWhile_cons_of_pos hp] at h
  have hlen := congrArg List.length h
  have hle := (List.dropWhile_sublist (l := rest) p).length_le
  simp only [List.length_cons] at hlen
  omega

/-- The last character of a `pstrip` fixed point is not whitespace. -/
theorem getLast_not_ws_of_pstrip (v : Str) (hv : pstrip v = v) :
    ∀ c, v.getLast? = some c → ¬ c.isWhitespace := by
  intro c hc
  have hrfix := (pstrip_eq_self_parts v hv).2
  have hrev : v.reverse.head? = some c := by
    rw [List.head?_reverse]
    exact hc
  rcases hrev2 : v.reverse with _ | ⟨c2, rest2⟩
  · rw [hrev2] at hrev
    cases hrev
  · rw [hrev2] at hrev
    cases hrev
    rw [hrev2] at hrfix
    exact dropWhile_fix_head_not _ _ _ hrfix

/-- A well-formed `key=value` line parses back to `(key, value)`. -/
theorem parse_env_line_kv (key value : Str)
    (hk_ne : key ≠ []) (hk_ws : ∀ c ∈ key, ¬ c.isWhitespace) (hk_eq : '=' ∉ key)
    (hk_hash : key.head? ≠ some '#') (hv_strip : pstrip value = value) :
    parse_env_line (key ++ '=' :: value) = some (key, value) := by
  have hstrip : pstrip (key ++ '=' :: value) = key ++ '=' :: value := by
    apply pstrip_of_ends
    · intro c hc
      rw [List.head?_append_of_ne_nil _ hk_ne] at hc
      exact hk_ws c (List.mem_of_mem_head? hc)
    · intro c hc
      rw [List.getLast?_append_of_ne_nil _ (by simp : ('=' :: value : Str) ≠ [])] at hc
      cases value with
      | nil =>
        simp at hc
        rw [← hc]
        decide
      | cons v0 vr =>
        have hc2 : (v0 :: vr : Str).getLast? = some c := by
          rw [← hc]
          rfl
        exact getLast_not_ws_of_pstrip (v0 :: vr) hv_strip c hc2
  have hne : ¬ (key ++ '=' :: value) = [] := by simp
  have hhash : ¬ (key ++ '=' :: value).head? = some '#' := by
    rw [List.head?_append_of_ne_nil _ hk_ne]
    exact hk_hash
  have hcontains : (key ++ '=' :: value).contains '=' = true := by
    rw [List.elem_iff]
    exact List.mem_append.mpr (Or.inr (List.mem_cons_self '=' value))
  simp only [parse_env_line, hstrip]
  rw [if_neg hne, if_neg hhash, if_neg (by rw [hcontains]; simp)]
  rw [takeWhile_kv key value hk_eq, dropWhile_kv key value hk_eq]
  simp

/-- Any line that `load_env` reads as an assignment of `key` has
`key=` as a prefix of its stripped form. -/
theorem parse_env_line_key_prefix (l key v : Str)
    (h : parse_env_line l = some (key, v)) :
    (key ++ ['=']).isPrefixOf (pstrip l) = true := by
  simp only [parse_env_line] at h
  by_cases h1 : pstrip l = []
  · rw [if_pos h1] at h
    cases h
  rw [if_neg h1] at h
  by_cases h2 : (pstrip l).head? = some '#'
  · rw [if_pos h2] at h
    cases h
  rw [if_neg h2] at h
  by_cases h3 : ¬ (pstrip l).contains '='
  · rw [if_pos h3] at h
    cases h
  rw [if_neg h3] at h
  rw [not_not] at h3
  cases h
  rcases hd : (pstrip l).dropWhile (· ≠ '=') with _ | ⟨c, rest⟩
  · exfalso
    have hline : (pstrip l).takeWhile (· ≠ '=') = pstrip l := by
      have hsplit := List.takeWhile_append_dropWhile (p := (fun c => decide (c ≠ '='))) (l := pstrip l)
      rw [hd] at hsplit
      simpa using hsplit
    have hmem : ('=' : Char) ∈ (pstrip l).takeWhile (· ≠ '=') := by
      rw [hline]
      exact List.elem_iff.mp h3
    have := List.mem_takeWhile_imp hmem
    simp at this
  · have hc : c = '=' := by
      have := dropWhile_head_not _ (pstrip l) c rest hd
      simpa using this
    subst hc
    set T := (pstrip l).takeWhile (· ≠ '=') with hT
    have hsplit : pstrip l = T ++ '=' :: rest := by
      have hTD := List.takeWhile_append_dropWhile (p := (fun c => decide (c ≠ '='))) (l := pstrip l)
      rw [hd] at hTD
      exact hTD.symm
    rw [hsplit]
    apply List.isPrefixOf_iff_prefix.mpr
    have hassoc : T ++ '=' :: rest = (T ++ ['=']) ++ rest := by
      simp
    rw [hassoc]
    exact List.prefix_append _ _

/-! ### The set/load round trip -/

/-- `set_env_value` expressed through the explicit lines pipeline. -/
theorem set_env_value_eq (content : Option Str) (key value : Str) :
    set_env_value content key value =
      join_nl
        (if (content_lines content).any (fun l => (key ++ ['=']).isPrefixOf l) then
          (content_lines content).map
            (fun l => if (key ++ ['=']).isPrefixOf l then key ++ '=' :: value else l)
        else content_lines content ++ [key ++ '=' :: value]) ++ ['\n'] := by
  cases content with
  | none =>
    simp [set_env_value, content_lines, set_env_loop, join_nl]
  | some cs =>
    simp only [set_env_value, set_env_loop_eq, content_lines]
    by_cases hb : (py_splitlines cs).any (fun l => (key ++ ['=']).isPrefixOf l) = true
    · simp [hb]
    · simp only [hb, if_neg, Bool.false_eq_true, not_false_eq_true, if_false]
      rw [map_noop_of_no_match key value _ hb]

/-- After `set_env_value`, loading the written file yields exactly the
written value at the key, provided the key is a well-formed env key, the
value is newline-free without surrounding whitespace, and no line of the
prior content assigns the key through leading whitespace (such a line
would survive the rewrite untouched and could shadow the written
assignment on reload). -/
theorem set_then_load (content : Option Str) (key value : Str)
    (hk_ne : key ≠ []) (hk_ws : ∀ c ∈ key, ¬ c.isWhitespace) (hk_eq : '=' ∉ key)
    (hk_hash : key.head? ≠ some '#') (hv_nl : '\n' ∉ value) (hv_strip : pstrip value = value)
    (hshadow : ∀ raw ∈ content_lines content,
      (key ++ ['=']).isPrefixOf (pstrip raw) = true → (key ++ ['=']).isPrefixOf raw = true) :
    env_get (load_env (some (set_env_value content key value))) key = value := by
  have hk_nl : '\n' ∉ key := fun hmem => hk_ws '\n' hmem (by decide)
  have hkv_nl : '\n' ∉ key ++ '=' :: value := kv_no_newline key value hk_nl hv_nl
  have hparse_kv : parse_env_line (key ++ '=' :: value) = some (key, value) :=
    parse_env_line_kv key value hk_ne hk_ws hk_eq hk_hash hv_strip
  have hlines_no : ∀ l ∈ content_lines content, '\n' ∉ l := by
    intro l hl
    cases content with
    | none => cases hl
    | some cs => exact splitlines_no_newline cs l hl
  rw [set_env_value_eq content key value]
  by_cases hany : (content_lines content).any (fun l => (key ++ ['=']).isPrefixOf l) = true
  · rw [if_pos hany]
    have hlines_ne : content_lines content ≠ [] := by
      intro h
      rw [h] at hany
      simp at hany
    have hout_ne : (content_lines content).map
        (fun l => if (key ++ ['=']).isPrefixOf l then key ++ '=' :: value else l) ≠ [] := by
      simpa using hlines_ne
    have hout_no : ∀ l ∈ (content_lines content).map
        (fun l => if (key ++ ['=']).isPrefixOf l then key ++ '=' :: value else l), '\n' ∉ l := by
      intro l hl
      rcases List.mem_map.mp hl with ⟨x, hx, rfl⟩
      by_cases hm : (key ++ ['=']).isPrefixOf x = true
      · simpa [hm] using hkv_nl
      · simpa [hm] using hlines_no x hx
    simp only [load_env]
    rw [splitlines_join_roundtrip _ hout_ne hout_no, env_get_load_env_lines]
    have hall : ∀ l ∈ (content_lines content).map
        (fun l => if (key ++ ['=']).isPrefixOf l then key ++ '=' :: value else l),
        ∀ k v, parse_env_line l = some (k, v) → k = key → v = value := by
      intro l hl k v hp hk
      rw [hk] at hp
      rcases List.mem_map.mp hl with ⟨x, hx, rfl⟩
      by_cases hm : (key ++ ['=']).isPrefixOf x = true
      · rw [if_pos hm] at hp
        rw [hparse_kv] at hp
        cases hp
        rfl
      · rw [if_neg hm] at hp
        have hpre := parse_env_line_key_prefix x key v hp
        exact absurd (hshadow x hx hpre) hm
    have hex : ∃ l ∈ (content_lines content).map
        (fun l => if (key ++ ['=']).isPrefixOf l then key ++ '=' :: value else l),
        parse_env_line l = some (key, value) := by
      rcases List.any_eq_true.mp hany with ⟨x, hx, hm⟩
      have hmem := List.mem_map_of_mem
        (fun l => if (key ++ ['=']).isPrefixOf l then key ++ '=' :: value else l) hx
      dsimp only at hmem
      rw [if_pos hm] at hmem
      exact ⟨key ++ '=' :: value, hmem, hparse_kv⟩
    rw [last_env_assign_const key value _ hall hex]
    rfl
  · rw [if_neg hany]
    have hout_ne : content_lines content ++ [key ++ '=' :: value] ≠ [] := by simp
    have hout_no : ∀ l ∈ content_lines content ++ [key ++ '=' :: value], '\n' ∉ l := by
      intro l hl
      rcases List.mem_append.mp hl with h | h
      · exact hlines_no l h
      · rcases List.mem_singleton.mp h with rfl
        exact hkv_nl
    simp only [load_env]
    rw [splitlines_join_roundtrip _ hout_ne hout_no, env_get_load_env_lines]
    rw [last_env_assign_append]
    have hlast : last_env_assign key [key ++ '=' :: value] = some value := by
      simp only [last_env_assign, hparse_kv]
      simp
    rw [hlast]
    rfl

/-! ### C10: round trip of the Env Store -/

/-- C10 counterexample: all the claim's hypotheses hold for key `K` and
value `v`, yet after `set_env_value` on a file with a leading-whitespace
shadow line ` K=bad`, the reload returns `bad` — the shadow line is not
rewritten (it does not start with `K=`) but `load_env` strips it and
lets it win as the later occurrence. -/
theorem C10_counterexample :
    chars "K" ≠ [] ∧ (∀ c ∈ chars "K", ¬ c.isWhitespace) ∧ '=' ∉ chars "K"
    ∧ (chars "K").head? ≠ some '#' ∧ '\n' ∉ chars "v" ∧ pstrip (chars "v") = chars "v"
    ∧ env_get (load_env (some (set_env_value (some (chars "K=old\n K=bad\n"))
        (chars "K") (chars "v")))) (chars "K") = chars "bad"
    ∧ chars "bad" ≠ chars "v" :=
  ⟨by decide, by decide, by decide, by decide, by decide, by decide, by decide, by decide⟩

/-- C10 (amended): for every prior content, well-formed key (non-empty,
no whitespace, no `=`, no leading `#`) and value (no newline, no
surrounding whitespace), and provided no line of the prior content
assigns the key behind leading whitespace, a `set_env_value` followed by
`load_env` returns exactly the written value at the key. -/
theorem C10_set_load_roundtrip :
    ∀ (content : Option Str) (key value : Str),
      key ≠ [] → (∀ c ∈ key, ¬ c.isWhitespace) → '=' ∉ key → key.head? ≠ some '#' →
      '\n' ∉ value → pstrip value = value →
      (∀ raw ∈ content_lines content,
        (key ++ ['=']).isPrefixOf (pstrip raw) = true →
        (key ++ ['=']).isPrefixOf raw = true) →
      env_get (load_env (some (set_env_value content key value))) key = value := by
  intro content key value h1 h2 h3 h4 h5 h6 h7
  exact set_then_load content key value h1 h2 h3 h4 h5 h6 h7

/-- Witness for C10 at a concrete well-formed file. -/
theorem C10_witness :
    (chars "B" ≠ [] ∧ (∀ c ∈ chars "B", ¬ c.isWhitespace) ∧ '=' ∉ chars "B"
      ∧ (chars "B").head? ≠ some '#' ∧ '\n' ∉ chars "2" ∧ pstrip (chars "2") = chars "2"
      ∧ (∀ raw ∈ content_lines (some (chars "A=1\n")),
          (chars "B" ++ ['=']).isPrefixOf (pstrip raw) = true →
          (chars "B" ++ ['=']).isPrefixOf raw = true))
    ∧ env_get (load_env (some (set_env_value (some (chars "A=1\n")) (chars "B") (chars "2"))))
        (chars "B") = chars "2" :=
  ⟨⟨by decide, by decide, by decide, by decide, by decide, by decide, by decide⟩,
    C10_set_load_roundtrip (some (chars "A=1\n")) (chars "B") (chars "2")
      (by decide) (by decide) (by decide) (by decide) (by decide) (by decide) (by decide)⟩

/-! ### C2: operator-supplied secrets are kept -/

/-- C2: when the Env Store holds a non-missing secret (per
`is_missing_secret`) and the admin credentials are present,
`load_config` resolves exactly that stored value, does not mark it
generated, and leaves the file content untouched. -/
theorem C2_existing_secret_kept :
    ∀ (content : Option Str) (choose : Nat → Nat),
      env_get (load_env content) (chars "KC_ADMIN") ≠ [] →
      env_get (load_env content) (chars "KC_ADMIN_PASSWORD") ≠ [] →
      is_missing_secret (env_get (load_env content) (chars "PROSODY_OAUTH_SECRET")) = false →
      load_config content choose =
        .ok (env_get (load_env content) (chars "PROSODY_OAUTH_SECRET"), content, false) := by
  intro content choose hadmin hpass hmissing
  have hne : env_get (load_env content) (chars "PROSODY_OAUTH_SECRET") ≠ [] := by
    intro h
    rw [h] at hmissing
    have htrue : is_missing_secret ([] : Str) = true := by decide
    rw [htrue] at hmissing
    cases hmissing
  have hnp : env_get (load_env content) (chars "PROSODY_OAUTH_SECRET") ≠
      chars "PASTE_FROM_KEYCLOAK_UI" := by
    intro h
    rw [h] at hmissing
    have htrue : is_missing_secret (chars "PASTE_FROM_KEYCLOAK_UI") = true := by decide
    rw [htrue] at hmissing
    cases hmissing
  simp only [load_config]
  rw [if_neg (by push_neg; exact ⟨hadmin, hpass⟩), if_neg (by push_neg; exact ⟨hne, hnp⟩)]

/-- Witness for C2 at a concrete env file with an operator-supplied
secret. -/
theorem C2_witness :
    (env_get (load_env (some (chars "KC_ADMIN=a\nKC_ADMIN_PASSWORD=b\nPROSODY_OAUTH_SECRET=s3cr3t\n")))
        (chars "KC_ADMIN") ≠ []
      ∧ env_get (load_env (some (chars "KC_ADMIN=a\nKC_ADMIN_PASSWORD=b\nPROSODY_OAUTH_SECRET=s3cr3t\n")))
        (chars "KC_ADMIN_PASSWORD") ≠ []
      ∧ is_missing_secret (env_get (load_env (some (chars "KC_ADMIN=a\nKC_ADMIN_PASSWORD=b\nPROSODY_OAUTH_SECRET=s3cr3t\n")))
        (chars "PROSODY_OAUTH_SECRET")) = false)
    ∧ load_config (some (chars "KC_ADMIN=a\nKC_ADMIN_PASSWORD=b\nPROSODY_OAUTH_SECRET=s3cr3t\n"))
        (fun _ => 0) =
      .ok (env_get (load_env (some (chars "KC_ADMIN=a\nKC_ADMIN_PASSWORD=b\nPROSODY_OAUTH_SECRET=s3cr3t\n")))
          (chars "PROSODY_OAUTH_SECRET"),
        some (chars "KC_ADMIN=a\nKC_ADMIN_PASSWORD=b\nPROSODY_OAUTH_SECRET=s3cr3t\n"), false) :=
  ⟨⟨by decide, by decide, by decide⟩,
    C2_existing_secret_kept
      (some (chars "KC_ADMIN=a\nKC_ADMIN_PASSWORD=b\nPROSODY_OAUTH_SECRET=s3cr3t\n"))
      (fun _ => 0) (by decide) (by decide) (by decide)⟩

/-! ### C1: secret auto-generation -/

/-- C1 counterexample: this variant generates secrets of length 32, not
the canonical 48 the claim states — `load_config` calls its local
`generate_secret()` whose default length is 32. -/
theorem C1_counterexample :
    load_config (some (chars "KC_ADMIN=a\nKC_ADMIN_PASSWORD=b\n")) (fun _ => 0) =
      .ok (generate_secret (fun _ => 0),
        some (set_env_value (some (chars "KC_ADMIN=a\nKC_ADMIN_PASSWORD=b\n"))
          (chars "PROSODY_OAUTH_SECRET") (generate_secret (fun _ => 0))), true)
    ∧ (generate_secret (fun _ => 0)).length = 32
    ∧ (generate_secret (fun _ => 0)).length ≠ 48 :=
  ⟨rfl, by decide, by decide⟩

/-- Every generated character is drawn from the alphanumeric alphabet. -/
theorem generate_secret_mem_alphabet (choose : Nat → Nat) (c : Char)
    (hc : c ∈ generate_secret choose) : c ∈ py_alphabet := by
  rcases List.mem_map.mp hc with ⟨i, _, rfl⟩
  rcases hget : py_alphabet.get? (choose i % py_alphabet.length) with _ | x
  · have hd : py_alphabet.getD (choose i % py_alphabet.length) 'a' = 'a' := by
      unfold List.getD
      rw [hget]
      rfl
    rw [hd]
    decide
  · have hd : py_alphabet.getD (choose i % py_alphabet.length) 'a' = x := by
      unfold List.getD
      rw [hget]
      rfl
    rw [hd]
    exact List.get?_mem hget

/-- C1 (amended): for a missing or `PASTE_FROM_KEYCLOAK_UI` placeholder
secret (the placeholders this variant checks), with admin credentials
present, `load_config` generates a secret of length 32 (not 48 — this
variant's default) drawn only from ASCII letters and digits, persists it
via `set_env_value`, and a subsequent `load_env` of the written file
returns exactly the generated value — the last part provided no line of
the prior content assigns the key behind leading whitespace. -/
theorem C1_secret_generation :
    ∀ (content : Option Str) (choose : Nat → Nat),
      env_get (load_env content) (chars "KC_ADMIN") ≠ [] →
      env_get (load_env content) (chars "KC_ADMIN_PASSWORD") ≠ [] →
      (env_get (load_env content) (chars "PROSODY_OAUTH_SECRET") = [] ∨
        env_get (load_env content) (chars "PROSODY_OAUTH_SECRET") =
          chars "PASTE_FROM_KEYCLOAK_UI") →
      (∀ raw ∈ content_lines content,
        (chars "PROSODY_OAUTH_SECRET" ++ ['=']).isPrefixOf (pstrip raw) = true →
        (chars "PROSODY_OAUTH_SECRET" ++ ['=']).isPrefixOf raw = true) →
      load_config content choose =
        .ok (generate_secret choose,
          some (set_env_value content (chars "PROSODY_OAUTH_SECRET") (generate_secret choose)),
          true)
      ∧ (generate_secret choose).length = 32
      ∧ (∀ c ∈ generate_secret choose, c ∈ py_alphabet)
      ∧ env_get (load_env (some (set_env_value content (chars "PROSODY_OAUTH_SECRET")
          (generate_secret choose)))) (chars "PROSODY_OAUTH_SECRET") =
        generate_secret choose := by
  intro content choose hadmin hpass hmissing hshadow
  have halpha : ∀ c ∈ generate_secret choose, c ∈ py_alphabet :=
    fun c hc => generate_secret_mem_alphabet choose c hc
  have halpha_ws : ∀ c ∈ py_alphabet, ¬ c.isWhitespace := by decide
  refine ⟨?_, ?_, halpha, ?_⟩
  · simp only [load_config]
    rw [if_neg (by push_neg; exact ⟨hadmin, hpass⟩), if_pos hmissing]
  · simp [generate_secret]
  · exact set_then_load content (chars "PROSODY_OAUTH_SECRET") (generate_secret choose)
      (by decide) (by decide) (by decide) (by decide)
      (fun hmem => absurd (halpha '\n' hmem) (by decide))
      (pstrip_of_all_not_ws _ (fun c hc => halpha_ws c (halpha c hc)))
      hshadow

/-- Witness for C1 at a concrete env file missing the secret. -/
theorem C1_witness :
    (env_get (load_env (some (chars "KC_ADMIN=a\nKC_ADMIN_PASSWORD=b\n")))
        (chars "KC_ADMIN") ≠ []
      ∧ env_get (load_env (some (chars "KC_ADMIN=a\nKC_ADMIN_PASSWORD=b\n")))
        (chars "KC_ADMIN_PASSWORD") ≠ []
      ∧ (env_get (load_env (some (chars "KC_ADMIN=a\nKC_ADMIN_PASSWORD=b\n")))
          (chars "PROSODY_OAUTH_SECRET") = [] ∨
        env_get (load_env (some (chars "KC_ADMIN=a\nKC_ADMIN_PASSWORD=b\n")))
          (chars "PROSODY_OAUTH_SECRET") = chars "PASTE_FROM_KEYCLOAK_UI"))
    ∧ (load_config (some (chars "KC_ADMIN=a\nKC_ADMIN_PASSWORD=b\n")) (fun _ => 0) =
        .ok (generate_secret (fun _ => 0),
          some (set_env_value (some (chars "KC_ADMIN=a\nKC_ADMIN_PASSWORD=b\n"))
            (chars "PROSODY_OAUTH_SECRET") (generate_secret (fun _ => 0))), true)
      ∧ (generate_secret (fun _ => 0)).length = 32
      ∧ (∀ c ∈ generate_secret (fun _ => 0), c ∈ py_alphabet)
      ∧ env_get (load_env (some (set_env_value (some (chars "KC_ADMIN=a\nKC_ADMIN_PASSWORD=b\n"))
          (chars "PROSODY_OAUTH_SECRET") (generate_secret (fun _ => 0)))))
          (chars "PROSODY_OAUTH_SECRET") = generate_secret (fun _ => 0)) :=
  ⟨⟨by decide, by decide, Or.inl (by decide)⟩,
    C1_secret_generation (some (chars "KC_ADMIN=a\nKC_ADMIN_PASSWORD=b\n")) (fun _ => 0)
      (by decide) (by decide) (Or.inl (by decide)) (by decide)⟩

/-! ### Blankness of stringified JSON values -/

/-- A string strips to empty exactly when all its characters are
whitespace. -/
theorem pstrip_eq_nil_iff (l : Str) : pstrip l = [] ↔ ∀ c ∈ l, c.isWhitespace := by
  unfold pstrip rstripChars lstripChars
  constructor
  · intro h c hc
    have h2 : (l.dropWhile Char.isWhitespace).reverse.dropWhile Char.isWhitespace = [] := by
      rw [← List.reverse_eq_nil_iff]
      exact h
    have hall2 : ∀ c2 ∈ (l.dropWhile Char.isWhitespace).reverse, c2.isWhitespace :=
      List.dropWhile_eq_nil_iff.mp h2
    have hall3 : ∀ c2 ∈ l.dropWhile Char.isWhitespace, c2.isWhitespace :=
      fun c2 hc2 => hall2 c2 (List.mem_reverse.mpr hc2)
    rw [← List.takeWhile_append_dropWhile (p := Char.isWhitespace) (l := l)] at hc
    rcases List.mem_append.mp hc with h3 | h3
    · exact List.mem_takeWhile_imp h3
    · exact hall3 c h3
  · intro h
    have h1 : l.dropWhile Char.isWhitespace = [] := List.dropWhile_eq_nil_iff.mpr h
    rw [h1]
    rfl

/-- Rendered naturals are never empty. -/
theorem natToChars_ne_nil (n : Nat) : natToChars n ≠ [] := by
  rw [natToChars]
  split <;> simp

/-- Every character of a rendered natural is a digit character. -/
theorem natToChars_digits (n : Nat) : ∀ c ∈ natToChars n, ∃ d, d < 10 ∧ c = digitChar d := by
  induction n using Nat.strong_induction_on with
  | _ n ih =>
    rw [natToChars]
    split
    · next h =>
      intro c hc
      simp only [List.mem_singleton] at hc
      exact ⟨n, h, hc⟩
    · next h =>
      intro c hc
      rcases List.mem_append.mp hc with h2 | h2
      · exact ih (n / 10) (Nat.div_lt_self (by omega) (by omega)) c h2
      · simp only [List.mem_singleton] at h2
        exact ⟨n % 10, Nat.mod_lt _ (by omega), h2⟩

/-- Digit characters are not whitespace. -/
theorem natToChars_not_ws (n : Nat) : ∀ c ∈ natToChars n, ¬ c.isWhitespace := by
  intro c hc
  obtain ⟨d, hd, rfl⟩ := natToChars_digits n c hc
  interval_cases d <;> decide

/-- A rendered integer never strips to the empty string. -/
theorem pstrip_intToChars_ne_nil (i : Int) : pstrip (intToChars i) ≠ [] := by
  intro h
  have hall := (pstrip_eq_nil_iff _).mp h
  rw [intToChars] at hall
  by_cases hi : i < 0
  · rw [if_pos hi] at hall
    have := hall '-' (List.mem_cons_self _ _)
    revert this
    decide
  · rw [if_neg hi] at hall
    rcases hx : natToChars i.toNat with _ | ⟨c, rest⟩
    · exact natToChars_ne_nil i.toNat hx
    · have hmem : c ∈ natToChars i.toNat := by
        rw [hx]
        exact List.mem_cons_self c rest
      exact natToChars_not_ws _ c hmem (hall c (hx ▸ hmem))

/-- `str()` of a decoded JSON value strips to empty exactly when the
value is a string that strips to empty: `None`, booleans, numbers and
container reprs are never blank. -/
theorem pstrip_pyStr_eq_nil_iff (v : Json) :
    (pstrip (pyStr v) = [] ↔ ∃ s, v = .str s ∧ pstrip s = []) := by
  cases v with
  | null =>
    simp only [pyStr, pyRepr]
    constructor
    · intro h
      exact absurd h (by decide)
    · rintro ⟨s, hs, -⟩
      cases hs
  | bool b =>
    cases b <;>
      (simp only [pyStr, pyRepr]
       constructor
       · intro h
         exact absurd h (by decide)
       · rintro ⟨s, hs, -⟩
         cases hs)
  | num n =>
    simp only [pyStr, pyRepr]
    constructor
    · intro h
      exact absurd h (pstrip_intToChars_ne_nil n)
    · rintro ⟨s, hs, -⟩
      cases hs
  | str s =>
    simp only [pyStr]
    constructor
    · intro h
      exact ⟨s, rfl, h⟩
    · rintro ⟨s2, hs, h⟩
      injection hs with he
      rw [he]
      exact h
  | arr items =>
    simp only [pyStr, pyRepr]
    constructor
    · intro h
      have hws := (pstrip_eq_nil_iff _).mp h '[' (List.mem_cons_self _ _)
      exact absurd hws (by decide)
    · rintro ⟨s, hs, -⟩
      cases hs
  | obj fields =>
    simp only [pyStr, pyRepr]
    constructor
    · intro h
      have hws := (pstrip_eq_nil_iff _).mp h lbrace (List.mem_cons_self _ _)
      exact absurd hws (by decide)
    · rintro ⟨s, hs, -⟩
      cases hs

/-- The code's per-entry blank check agrees with the claim-side
"absent or blank" condition. -/
theorem secret_blank_bridge (fields : List (Str × Json)) :
    (pstrip (pyStr (jGetD fields (chars "secretEnvKey") (.str []))) = []) ↔
      secret_absent_or_blank fields = true := by
  unfold secret_absent_or_blank jGetD
  rcases h : jGet fields (chars "secretEnvKey") with _ | v
  · exact ⟨fun _ => rfl, fun _ => rfl⟩
  · cases v with
    | str s =>
      simp only [Option.getD_some, pyStr]
      simp
    | null =>
      refine ⟨fun hblank => ?_, fun htrue => Bool.noConfusion htrue⟩
      rcases (pstrip_pyStr_eq_nil_iff Json.null).mp hblank with ⟨s, hs, -⟩
      cases hs
    | bool b =>
      refine ⟨fun hblank => ?_, fun htrue => Bool.noConfusion htrue⟩
      rcases (pstrip_pyStr_eq_nil_iff (Json.bool b)).mp hblank with ⟨s, hs, -⟩
      cases hs
    | num n =>
      refine ⟨fun hblank => ?_, fun htrue => Bool.noConfusion htrue⟩
      rcases (pstrip_pyStr_eq_nil_iff (Json.num n)).mp hblank with ⟨s, hs, -⟩
      cases hs
    | arr items =>
      refine ⟨fun hblank => ?_, fun htrue => Bool.noConfusion htrue⟩
      rcases (pstrip_pyStr_eq_nil_iff (Json.arr items)).mp hblank with ⟨s, hs, -⟩
      cases hs
    | obj fields2 =>
      refine ⟨fun hblank => ?_, fun htrue => Bool.noConfusion htrue⟩
      rcases (pstrip_pyStr_eq_nil_iff (Json.obj fields2)).mp hblank with ⟨s, hs, -⟩
      cases hs

/-! ### C6: `parse_clients_file` validation and defaults -/

/-- An `Except` value is an error exactly when it is not a success. -/
theorem except_error_iff_not_ok (x : Except Str (List (Str × ClientDefinition))) :
    (∃ e, x = .error e) ↔ ¬ ∃ r, x = .ok r := by
  cases x with
  | error e =>
    constructor
    · rintro - ⟨r, hr⟩
      cases hr
    · intro _
      exact ⟨e, rfl⟩
  | ok r =>
    constructor
    · rintro ⟨e, he⟩
      cases he
    · intro h
      exact absurd ⟨r, rfl⟩ h

/-- The entry loop succeeds exactly when every entry is well-formed:
non-empty name, object value, and a present non-blank secret key
name. -/
theorem parse_clients_entries_ok_iff (entries : List (Str × Json)) :
    (∃ res, parse_clients_entries entries = .ok res) ↔
      ∀ p ∈ entries, p.1 ≠ [] ∧ ∃ fields, p.2 = .obj fields ∧
        ¬ secret_absent_or_blank fields = true := by
  induction entries with
  | nil =>
    constructor
    · intro _ p hp
      cases hp
    · intro _
      exact ⟨[], rfl⟩
  | cons e rest ih =>
    obtain ⟨name, cfg⟩ := e
    constructor
    · rintro ⟨res, hres⟩
      simp only [parse_clients_entries] at hres
      by_cases h1 : name = []
      · rw [if_pos h1] at hres
        cases hres
      rw [if_neg h1] at hres
      cases cfg with
      | obj fields =>
        dsimp only at hres
        by_cases h2 : pstrip (pyStr (jGetD fields (chars "secretEnvKey") (.str []))) = []
        · rw [if_pos h2] at hres
          cases hres
        · rw [if_neg h2] at hres
          rcases hrec : parse_clients_entries rest with e2 | tail <;> rw [hrec] at hres
          · cases hres
          · intro p hp
            rcases List.mem_cons.mp hp with rfl | hp2
            · exact ⟨h1, fields, rfl, by rwa [← secret_blank_bridge]⟩
            · exact (ih.mp ⟨tail, hrec⟩) p hp2
      | null =>
        dsimp only at hres
        cases hres
      | bool b =>
        dsimp only at hres
        cases hres
      | num n =>
        dsimp only at hres
        cases hres
      | str s =>
        dsimp only at hres
        cases hres
      | arr items =>
        dsimp only at hres
        cases hres
    · intro hall
      obtain ⟨h1, fields, hcfg, h2⟩ := hall (name, cfg) (List.mem_cons_self _ _)
      subst hcfg
      obtain ⟨tail, htail⟩ := ih.mpr (fun p hp => hall p (List.mem_cons_of_mem _ hp))
      refine ⟨(name, client_of_entry name fields) :: tail, ?_⟩
      simp only [parse_clients_entries]
      rw [if_neg h1]
      rw [if_neg (fun hb => h2 ((secret_blank_bridge fields).mp hb)), htail]

/-- On success, every object entry contributes its built record. -/
theorem parse_clients_entries_mem (entries : List (Str × Json))
    (res : List (Str × ClientDefinition)) (hres : parse_clients_entries entries = .ok res)
    (name : Str) (fields : List (Str × Json)) (hmem : (name, Json.obj fields) ∈ entries) :
    (name, client_of_entry name fields) ∈ res := by
  induction entries generalizing res with
  | nil => cases hmem
  | cons e rest ih =>
    obtain ⟨n2, cfg2⟩ := e
    simp only [parse_clients_entries] at hres
    by_cases h1 : n2 = []
    · rw [if_pos h1] at hres
      cases hres
    rw [if_neg h1] at hres
    cases cfg2 with
    | obj fields2 =>
      dsimp only at hres
      by_cases h2 : pstrip (pyStr (jGetD fields2 (chars "secretEnvKey") (.str []))) = []
      · rw [if_pos h2] at hres
        cases hres
      · rw [if_neg h2] at hres
        rcases hrec : parse_clients_entries rest with e3 | tail <;> rw [hrec] at hres
        · cases hres
        · cases hres
          rcases List.mem_cons.mp hmem with heq | hmem2
          · injection heq with ha hb
            subst ha
            injection hb with hf
            subst hf
            exact List.mem_cons_self _ _
          · exact List.mem_cons_of_mem _ (ih tail hrec hmem2)
    | null =>
      dsimp only at hres
      cases hres
    | bool b =>
      dsimp only at hres
      cases hres
    | num n =>
      dsimp only at hres
      cases hres
    | str s =>
      dsimp only at hres
      cases hres
    | arr items =>
      dsimp only at hres
      cases hres

/-- An entry violates well-formedness exactly when its name is empty,
its value is not an object, or its secret key name is absent/blank. -/
theorem entry_bad_iff (p : Str × Json) :
    ¬(p.1 ≠ [] ∧ ∃ fields, p.2 = .obj fields ∧ ¬ secret_absent_or_blank fields = true) ↔
      (p.1 = [] ∨ (∀ fields, p.2 ≠ .obj fields) ∨
        ∃ fields, p.2 = .obj fields ∧ secret_absent_or_blank fields = true) := by
  obtain ⟨name, cfg⟩ := p
  constructor
  · intro h
    by_cases h1 : name = []
    · exact Or.inl h1
    by_cases h2 : ∃ fields, cfg = .obj fields
    · obtain ⟨fields, rfl⟩ := h2
      right
      right
      refine ⟨fields, rfl, ?_⟩
      by_contra hb
      exact h ⟨h1, fields, rfl, hb⟩
    · right
      left
      intro fields hf
      exact h2 ⟨fields, hf⟩
  · rintro (h1 | h2 | ⟨fields, hf, hb⟩) ⟨hn, fields2, hf2, hnb⟩
    · exact hn h1
    · exact h2 fields2 hf2
    · rw [hf] at hf2
      injection hf2 with he
      subst he
      exact hnb hb

/-- C6: `parse_clients_file` fails exactly when the document is
undecodable, its root is not an object, or some entry has an empty name,
a non-object value, or an absent/blank `secretEnvKey` (JSON object keys
are strings by construction, so "non-string key" cannot arise in a
decoded document); and on success every entry's absent boolean fields
default to `directAccessGrants = false`, `standardFlow = true`,
`serviceAccounts = false`. -/
theorem C6_parse_clients :
    (∀ decoded : Option Json,
      ((∃ e, parse_clients_file decoded = .error e) ↔
        (decoded = none
          ∨ (∀ entries, decoded ≠ some (.obj entries))
          ∨ (∃ entries, decoded = some (.obj entries) ∧ ∃ p ∈ entries,
              p.1 = []
              ∨ (∀ fields, p.2 ≠ .obj fields)
              ∨ (∃ fields, p.2 = .obj fields ∧ secret_absent_or_blank fields = true)))))
    ∧ (∀ entries res name fields,
        parse_clients_file (some (.obj entries)) = .ok res →
        (name, Json.obj fields) ∈ entries →
        (name, client_of_entry name fields) ∈ res
          ∧ (jGet fields (chars "directAccessGrants") = none →
              (client_of_entry name fields).direct_access_grants = false)
          ∧ (jGet fields (chars "standardFlow") = none →
              (client_of_entry name fields).standard_flow = true)
          ∧ (jGet fields (chars "serviceAccounts") = none →
              (client_of_entry name fields).service_accounts = false)) := by
  constructor
  · intro decoded
    cases decoded with
    | none =>
      constructor
      · intro _
        exact Or.inl rfl
      · intro _
        exact ⟨malformed_json_message, rfl⟩
    | some j =>
      cases j with
      | obj entries =>
        have hfile : parse_clients_file (some (.obj entries)) = parse_clients_entries entries :=
          rfl
        rw [hfile, except_error_iff_not_ok, parse_clients_entries_ok_iff]
        constructor
        · intro hnot
          right
          right
          refine ⟨entries, rfl, ?_⟩
          rcases not_forall.mp hnot with ⟨p, hp⟩
          rcases Classical.not_imp.mp hp with ⟨hpmem, hbad⟩
          exact ⟨p, hpmem, (entry_bad_iff p).mp hbad⟩
        · rintro (h | h | ⟨entries2, heq, p, hpmem, hbad⟩)
          · cases h
          · exact absurd rfl (h entries)
          · injection heq with heq2
            injection heq2 with heq3
            subst heq3
            intro hall
            exact (entry_bad_iff p).mpr hbad (hall p hpmem)
      | null =>
        constructor
        · intro _
          right
          left
          intro entries h
          injection h with h2
          cases h2
        · intro _
          exact ⟨chars "clients.json must be a JSON object keyed by client name", rfl⟩
      | bool b =>
        constructor
        · intro _
          right
          left
          intro entries h
          injection h with h2
          cases h2
        · intro _
          exact ⟨chars "clients.json must be a JSON object keyed by client name", rfl⟩
      | num n =>
        constructor
        · intro _
          right
          left
          intro entries h
          injection h with h2
          cases h2
        · intro _
          exact ⟨chars "clients.json must be a JSON object keyed by client name", rfl⟩
      | str s =>
        constructor
        · intro _
          right
          left
          intro entries h
          injection h with h2
          cases h2
        · intro _
          exact ⟨chars "clients.json must be a JSON object keyed by client name", rfl⟩
      | arr items =>
        constructor
        · intro _
          right
          left
          intro entries h
          injection h with h2
          cases h2
        · intro _
          exact ⟨chars "clients.json must be a JSON object keyed by client name", rfl⟩
  · intro entries res name fields hres hmem
    have hres2 : parse_clients_entries entries = .ok res := hres
    refine ⟨parse_clients_entries_mem entries res hres2 name fields hmem, ?_, ?_, ?_⟩
    · intro habs
      simp [client_of_entry, jGetD, habs, pyTruthy]
    · intro habs
      simp [client_of_entry, jGetD, habs, pyTruthy]
    · intro habs
      simp [client_of_entry, jGetD, habs, pyTruthy]

/-- Witness for C6 at a concrete one-entry document with all boolean
fields absent. -/
theorem C6_witness :
    (parse_clients_file (some (.obj [(chars "app",
        Json.obj [(chars "secretEnvKey", Json.str (chars "APP_SECRET"))])])) =
      .ok [(chars "app", client_of_entry (chars "app")
        [(chars "secretEnvKey", Json.str (chars "APP_SECRET"))])])
    ∧ ((chars "app", Json.obj [(chars "secretEnvKey", Json.str (chars "APP_SECRET"))]) ∈
        [(chars "app", Json.obj [(chars "secretEnvKey", Json.str (chars "APP_SECRET"))])])
    ∧ ((chars "app", client_of_entry (chars "app")
          [(chars "secretEnvKey", Json.str (chars "APP_SECRET"))]) ∈
        [(chars "app", client_of_entry (chars "app")
          [(chars "secretEnvKey", Json.str (chars "APP_SECRET"))])]
      ∧ (jGet [(chars "secretEnvKey", Json.str (chars "APP_SECRET"))]
            (chars "directAccessGrants") = none →
          (client_of_entry (chars "app")
            [(chars "secretEnvKey", Json.str (chars "APP_SECRET"))]).direct_access_grants = false)
      ∧ (jGet [(chars "secretEnvKey", Json.str (chars "APP_SECRET"))]
            (chars "standardFlow") = none →
          (client_of_entry (chars "app")
            [(chars "secretEnvKey", Json.str (chars "APP_SECRET"))]).standard_flow = true)
      ∧ (jGet [(chars "secretEnvKey", Json.str (chars "APP_SECRET"))]
            (chars "serviceAccounts") = none →
          (client_of_entry (chars "app")
            [(chars "secretEnvKey", Json.str (chars "APP_SECRET"))]).service_accounts = false)) :=
  ⟨rfl, by simp,
    C6_parse_clients.2
      [(chars "app", Json.obj [(chars "secretEnvKey", Json.str (chars "APP_SECRET"))])]
      [(chars "app", client_of_entry (chars "app")
        [(chars "secretEnvKey", Json.str (chars "APP_SECRET"))])]
      (chars "app") [(chars "secretEnvKey", Json.str (chars "APP_SECRET"))]
      rfl (by simp)⟩

end MerveillesChat
